import Mathlib

/-!
Verification of the XCOMish tactical-combat core: a shallow embedding of
`game/world/grid.py`, `game/world/cover.py`, `game/world/los.py`,
`game/world/pathing.py`, `game/combat/hit.py`, `game/combat/weapons.py` and
`game/combat/resolve.py`, together with theorems about the embedded code.

Conventions of the embedding:
* Python `int` becomes `ℤ`; coordinates are pairs of integers.
* Python dictionaries (`costs`, `parents`) become association lists with
  guarded insertion, looked up by `dlookup`.
* The only floating-point values in the core are Euclidean distances
  (`math.hypot`), the range-band bounds and the graze multiplier.  They are
  idealised as exact real numbers: a distance is carried as its square
  `distSq = dx^2 + dy^2 : ℤ`, band bounds and the graze multiplier are `ℚ`,
  and every comparison `q ≤ √distSq` or `√distSq < q` is expressed exactly on
  integers via numerator/denominator (`sqrtGe`, `sqrtLt`).
* Python's `round` (round-half-to-even) on an exact rational is
  `pyRoundHalfEven`.
* `random.Random` is modelled as a stream of integers with a cursor; each
  `randint lo hi` consumes one stream element, clamped into `[lo, hi]`.
-/

/-- Association-list lookup, the model of Python dict access. -/
def dlookup {α β : Type} [DecidableEq α] (k : α) : List (α × β) → Option β
  | [] => none
  | (k', v) :: rest => if k' = k then some v else dlookup k rest

abbrev Coord : Type := ℤ × ℤ

/-- The grid of `game/world/grid.py`: tile bounds plus a set of blocked
coordinates (membership given by a Boolean predicate). -/
structure Grid where
  cols : ℤ
  rows : ℤ
  blocked : Coord → Bool

/-- Source `Grid.in_bounds`. -/
def Grid.in_bounds (g : Grid) (col row : ℤ) : Bool :=
  decide (0 ≤ col) && decide (col < g.cols) && decide (0 ≤ row) && decide (row < g.rows)

/-- Source `Grid.is_blocked`: membership in the blocked set, no bounds check. -/
def Grid.is_blocked (g : Grid) (col row : ℤ) : Bool :=
  g.blocked (col, row)

/-- Source `Grid.is_passable`: in bounds and not blocked. -/
def Grid.is_passable (g : Grid) (col row : ℤ) : Bool :=
  g.in_bounds col row && !(g.blocked (col, row))

/-- Compass sides of a tile (`game/world/cover.py`). -/
inductive Side : Type
  | N | E | S | W
deriving DecidableEq, Repr

/-- Cover levels of one side (`game/world/cover.py`). -/
inductive CoverType : Type
  | none | half | full
deriving DecidableEq, Repr

/-- Source `DIRS`: the cardinal offset of each side. -/
def sideDir : Side → Coord
  | .N => (0, -1)
  | .E => (1, 0)
  | .S => (0, 1)
  | .W => (-1, 0)

/-- Source `DIAGS`: the two diagonal offsets adjacent to each side. -/
def sideDiags : Side → Coord × Coord
  | .N => ((-1, -1), (1, -1))
  | .E => ((1, -1), (1, 1))
  | .S => ((-1, 1), (1, 1))
  | .W => ((-1, -1), (-1, 1))

/-- Source `compute_tile_cover`: for each side, full cover when the cardinal
neighbour is blocked (or out of bounds with `oob_is_full`), else half cover
when an in-bounds diagonal neighbour of that side is blocked, else none. -/
def compute_tile_cover (g : Grid) (col row : ℤ) (oob_is_full : Bool) : Side → CoverType :=
  fun side =>
    let d := sideDir side
    let ac := col + d.1
    let ar := row + d.2
    let adj_in := g.in_bounds ac ar
    if (adj_in && g.is_blocked ac ar) || (!adj_in && oob_is_full) then CoverType.full
    else
      let dg := sideDiags side
      if (g.in_bounds (col + dg.1.1) (row + dg.1.2) && g.is_blocked (col + dg.1.1) (row + dg.1.2))
          || (g.in_bounds (col + dg.2.1) (row + dg.2.2) && g.is_blocked (col + dg.2.1) (row + dg.2.2)) then
        CoverType.half
      else CoverType.none

/-- One iteration step of the loop body of `bresenham_line`, fuelled.  The
source's `while True` loop always terminates (proved below); the fuel chosen
in `bresenham_line` is shown never to run out. -/
def bresAux (x1 y1 dx dy sx sy : ℤ) : ℕ → ℤ → ℤ → ℤ → List Coord
  | 0, _, _, _ => []
  | fuel + 1, x0, y0, err =>
    (x0, y0) ::
      (if x0 = x1 ∧ y0 = y1 then []
       else
         let e2 := 2 * err
         let x0' := if dy ≤ e2 then x0 + sx else x0
         let err1 := if dy ≤ e2 then err + dy else err
         let y0' := if e2 ≤ dx then y0 + sy else y0
         let err2 := if e2 ≤ dx then err1 + dx else err1
         bresAux x1 y1 dx dy sx sy fuel x0' y0' err2)

/-- Source `bresenham_line`: tiles from `a` to `b` inclusive, incremental
error accumulation, stepping in x when `2*err >= dy` and in y when
`2*err <= dx`. -/
def bresenham_line (a b : Coord) : List Coord :=
  let dx : ℤ := |b.1 - a.1|
  let dy : ℤ := -|b.2 - a.2|
  let sx : ℤ := if a.1 < b.1 then 1 else -1
  let sy : ℤ := if a.2 < b.2 then 1 else -1
  bresAux b.1 b.2 dx dy sx sy ((b.1 - a.1).natAbs + (b.2 - a.2).natAbs + 1) a.1 a.2 (dx + dy)

/-- The walk inside source `los_clear`: scan tiles after the origin, succeed
on reaching `b`, fail on the first impassable intermediate tile. -/
def losWalk (g : Grid) (b : Coord) : List Coord → Bool
  | [] => true
  | c :: rest =>
    if c = b then true
    else if !(g.is_passable c.1 c.2) then false
    else losWalk g b rest

/-- Source `los_clear`: true when the straight line from `a` to `b` has no
blocked intermediate tiles (the origin tile is skipped, the destination's own
passability is irrelevant). -/
def los_clear (g : Grid) (a b : Coord) : Bool :=
  losWalk g b ((bresenham_line a b).drop 1)

/-- Source `facing_side`: which side of `to` faces `from_`, by dominant axis,
ties to the horizontal axis. -/
def facing_side (from_ tgt : Coord) : Side :=
  let dx := tgt.1 - from_.1
  let dy := tgt.2 - from_.2
  if |dy| ≤ |dx| then (if dx < 0 then Side.W else Side.E)
  else (if dy < 0 then Side.N else Side.S)

/-- The four neighbour offsets used by source `flood_fill`, in source order. -/
def dirs : List Coord := [(1, 0), (-1, 0), (0, 1), (0, -1)]

/-- State of the source `flood_fill` loop: the pending queue and the two
result dictionaries. -/
structure FFState where
  q : List Coord
  costs : List (Coord × ℕ)
  parents : List (Coord × Coord)

/-- The body of the inner `for` loop of source `flood_fill`, for one
neighbour offset `d` of the dequeued node `v` with cost `base`: skip if not
passable or already costed, else record cost and parent and enqueue. -/
def stepNbr (passable : Coord → Bool) (v : Coord) (base : ℕ) (st : FFState) (d : Coord) : FFState :=
  let n : Coord := (v.1 + d.1, v.2 + d.2)
  if !(passable n) then st
  else if (dlookup n st.costs).isSome then st
  else ⟨st.q ++ [n], (n, base + 1) :: st.costs, (n, v) :: st.parents⟩

/-- The `while q` loop of source `flood_fill`, fuelled.  The fuel chosen in
`flood_fill` is shown below to be large enough that the loop always drains
the queue. -/
def floodLoop (passable : Coord → Bool) (max_cost : ℤ) : ℕ → FFState → FFState
  | 0, st => st
  | fuel + 1, st =>
    match st.q with
    | [] => st
    | v :: rest =>
      let base := (dlookup v st.costs).getD 0
      if max_cost ≤ (base : ℤ) then
        floodLoop passable max_cost fuel ⟨rest, st.costs, st.parents⟩
      else
        floodLoop passable max_cost fuel (dirs.foldl (stepNbr passable v base) ⟨rest, st.costs, st.parents⟩)

/-- Fuel for `floodLoop`; any amount above the potential of the initial state
(computed from the L1 ball that can ever be costed) suffices. -/
def floodFuel (max_cost : ℤ) : ℕ :=
  4 * (2 * max_cost.toNat + 1) ^ 2 + 1

/-- Source `flood_fill`: 4-way BFS from `start` up to `max_cost`, cost one
per step; returns the cost and parent dictionaries. -/
def flood_fill (start : Coord) (passable : Coord → Bool) (max_cost : ℤ) :
    List (Coord × ℕ) × List (Coord × Coord) :=
  let st := floodLoop passable max_cost (floodFuel max_cost) ⟨[start], [(start, 0)], []⟩
  (st.costs, st.parents)

/-- The `while cur in parents` walk of source `reconstruct_path`, fuelled;
the source list is built backwards and reversed by `reconstruct_path`.  Here
the list is built front-first, so `reconstruct_path` reverses it the same
way.  The fuel `parents.length + 1` given below always suffices for parent
maps produced by `flood_fill`. -/
def reconstructAux (parents : List (Coord × Coord)) : ℕ → Coord → List Coord
  | 0, cur => [cur]
  | fuel + 1, cur =>
    match dlookup cur parents with
    | none => [cur]
    | some p => cur :: reconstructAux parents fuel p

/-- Source `reconstruct_path`: walk parent pointers back from `end_`, then
reverse, yielding the path from the root to `end_` inclusive. -/
def reconstruct_path (end_ : Coord) (parents : List (Coord × Coord)) : List Coord :=
  (reconstructAux parents (parents.length + 1) end_).reverse

/-- Exact test for `q ≤ √dsq` (with `dsq ≥ 0`), via numerator and
denominator: true iff `q ≤ 0` or `q² ≤ dsq`. -/
def sqrtGe (dsq : ℤ) (q : ℚ) : Bool :=
  decide (q.num ≤ 0) || decide (q.num ^ 2 ≤ dsq * (q.den : ℤ) ^ 2)

/-- Exact test for `√dsq < q` (with `dsq ≥ 0`): true iff `0 < q` and
`dsq < q²`. -/
def sqrtLt (dsq : ℤ) (q : ℚ) : Bool :=
  decide (0 < q.num) && decide (dsq * (q.den : ℤ) ^ 2 < q.num ^ 2)

/-- Python's `round` (round half to even) applied to the exact rational
`n / d`, for `d > 0`. -/
def pyRoundHalfEven (n d : ℤ) : ℤ :=
  let f := Int.fdiv n d
  let r := n - f * d
  if 2 * r < d then f
  else if d < 2 * r then f + 1
  else if f % 2 = 0 then f else f + 1

/-- Source `int(round(base * multiplier))` for an integer `base` and a
rational multiplier. -/
def roundMul (base : ℤ) (q : ℚ) : ℤ :=
  pyRoundHalfEven (base * q.num) (q.den : ℤ)

namespace S

/-- Source `settings.BASE_AIM_PERCENT`. -/
def BASE_AIM_PERCENT : ℤ := 65

/-- Source `settings.HIT_CLAMP_MIN`. -/
def HIT_CLAMP_MIN : ℤ := 5

/-- Source `settings.HIT_CLAMP_MAX`. -/
def HIT_CLAMP_MAX : ℤ := 95

/-- Source `settings.COVER_HALF_PENALTY`. -/
def COVER_HALF_PENALTY : ℤ := -20

/-- Source `settings.COVER_FULL_PENALTY`. -/
def COVER_FULL_PENALTY : ℤ := -40

/-- Source `settings.FLANK_BONUS`. -/
def FLANK_BONUS : ℤ := 30

/-- Source `settings.RANGE_BANDS`, each `(min_inclusive, max_exclusive, modifier)`. -/
def RANGE_BANDS : List (ℚ × ℚ × ℤ) :=
  [(0, 2, 10), (2, 8, 0), (8, 12, -10), (12, 999, -25)]

/-- Source `settings.BASE_CRIT_PERCENT`. -/
def BASE_CRIT_PERCENT : ℤ := 10

/-- Source `settings.CRIT_HALF_COVER_PENALTY`. -/
def CRIT_HALF_COVER_PENALTY : ℤ := -10

/-- Source `settings.CRIT_FULL_COVER_PENALTY`. -/
def CRIT_FULL_COVER_PENALTY : ℤ := -25

/-- Source `settings.CRIT_FLANK_BONUS`. -/
def CRIT_FLANK_BONUS : ℤ := 20

/-- Source `settings.CRIT_POINT_BLANK_BONUS`. -/
def CRIT_POINT_BLANK_BONUS : ℤ := 15

/-- Source `settings.GRAZE_BAND_PERCENT`. -/
def GRAZE_BAND_PERCENT : ℤ := 20

/-- Source `settings.GRAZE_MULTIPLIER` (the float `0.5`, exactly `1/2`). -/
def GRAZE_MULTIPLIER : ℚ := ⟨1, 2, by decide, by decide⟩

/-- Source `settings.DAMAGE_BASE_MIN`. -/
def DAMAGE_BASE_MIN : ℤ := 3

/-- Source `settings.DAMAGE_BASE_MAX`. -/
def DAMAGE_BASE_MAX : ℤ := 5

/-- Source `settings.CRIT_BONUS_DAMAGE`. -/
def CRIT_BONUS_DAMAGE : ℤ := 2

end S

/-- Source `WeaponSpec` of `game/combat/weapons.py` (fields in source order). -/
structure WeaponSpec where
  key : String
  name : String
  aim_bonus : ℤ
  base_crit : ℤ
  range_bands : Option (List (ℚ × ℚ × ℤ))
  dmg_min : ℤ
  dmg_max : ℤ
  crit_bonus_damage : ℤ
  graze_multiplier : ℚ
  mag_size : ℤ
  crit_point_blank_bonus : ℤ

/-- Source `Weapon`: a spec reference plus the mutable ammo count. -/
structure Weapon where
  spec : WeaponSpec
  ammo : ℤ

/-- Source `HitBreakdown` of `game/combat/hit.py`.  `distSq` carries the
square of the float `distance_tiles` stored by the source. -/
structure HitBreakdown where
  base : ℤ
  terms : List (String × ℤ)
  total : ℤ
  los : Bool
  flanked : Bool
  cover_type : CoverType
  distSq : ℤ

/-- Source `_range_modifier`: first band with `lo ≤ dist < hi` wins, no
match yields 0.  `dsq` is the squared distance. -/
def _range_modifier (dsq : ℤ) : List (ℚ × ℚ × ℤ) → ℤ
  | [] => 0
  | (lo, hi, m) :: rest =>
    if sqrtGe dsq lo && sqrtLt dsq hi then m else _range_modifier dsq rest

/-- Source `clamp` of `game/combat/hit.py`. -/
def clamp (p : ℤ) : ℤ :=
  max S.HIT_CLAMP_MIN (min S.HIT_CLAMP_MAX p)

/-- Source `compute_hit`: full hit breakdown from shooter to target.  The
source's `int(round(total))` is the identity because `total` stays an
integer throughout. -/
def compute_hit (g : Grid) (shooter target : Coord)
    (base_aim : Option ℤ) (range_bands : Option (List (ℚ × ℚ × ℤ))) : HitBreakdown :=
  let base := base_aim.getD S.BASE_AIM_PERCENT
  let dx := target.1 - shooter.1
  let dy := target.2 - shooter.2
  let dsq := dx ^ 2 + dy ^ 2
  let los := los_clear g shooter target
  if los then
    let cv := compute_tile_cover g target.1 target.2 true
    let side := facing_side shooter target
    let cover_type := cv side
    let flanked := cover_type = CoverType.none
    let rb := range_bands.getD S.RANGE_BANDS
    let rng := _range_modifier dsq rb
    let acc1 : List (String × ℤ) × ℤ :=
      if rng ≠ 0 then ([("range", rng)], base + rng) else ([], base)
    let acc2 : List (String × ℤ) × ℤ :=
      if flanked then
        (if S.FLANK_BONUS ≠ 0 then (acc1.1 ++ [("flank", S.FLANK_BONUS)], acc1.2 + S.FLANK_BONUS)
         else acc1)
      else if cover_type = CoverType.half ∧ S.COVER_HALF_PENALTY ≠ 0 then
        (acc1.1 ++ [("half cover", S.COVER_HALF_PENALTY)], acc1.2 + S.COVER_HALF_PENALTY)
      else if cover_type = CoverType.full ∧ S.COVER_FULL_PENALTY ≠ 0 then
        (acc1.1 ++ [("full cover", S.COVER_FULL_PENALTY)], acc1.2 + S.COVER_FULL_PENALTY)
      else acc1
    ⟨base, acc2.1, clamp acc2.2, true, flanked, cover_type, dsq⟩
  else
    ⟨base, [], 0, false, false, CoverType.none, dsq⟩

/-- Source `ShotPreview` of `game/combat/resolve.py` (`distSq` squares the
stored float distance). -/
structure ShotPreview where
  los : Bool
  hit_chance : ℤ
  crit_chance : ℤ
  graze_band : ℤ
  flanked : Bool
  cover_facing : CoverType
  distSq : ℤ
  dmg_base_min : ℤ
  dmg_base_max : ℤ
  dmg_graze_min : ℤ
  dmg_graze_max : ℤ
  dmg_crit_min : ℤ
  dmg_crit_max : ℤ

/-- Outcome of a resolved shot (`Outcome` literal of the source). -/
inductive Outcome : Type
  | blocked | miss | graze | hit | crit
deriving DecidableEq, Repr

/-- Source `ShotResult`. -/
structure ShotResult where
  outcome : Outcome
  roll : ℤ
  hit_chance : ℤ
  crit_chance : ℤ
  graze_band : ℤ
  damage : ℤ
  flanked : Bool
  cover_facing : CoverType
  distSq : ℤ

/-- Source `_crit_for_context`: base crit plus flank bonus, half/full cover
penalty and point-blank bonus (distance below two tiles), clamped to
`[0, 100]` then capped at the hit total.  The source's `int(round(crit))` is
the identity on the integer `crit`. -/
def _crit_for_context (hit_total : ℤ) (flanked : Bool) (cover_facing : CoverType)
    (distSq : ℤ) (wpn : Weapon) : ℤ :=
  let crit0 := wpn.spec.base_crit
  let crit1 := if flanked then crit0 + S.CRIT_FLANK_BONUS else crit0
  let crit2 :=
    if cover_facing = CoverType.half then crit1 + S.CRIT_HALF_COVER_PENALTY
    else if cover_facing = CoverType.full then crit1 + S.CRIT_FULL_COVER_PENALTY
    else crit1
  let crit3 := if sqrtLt distSq 2 then crit2 + wpn.spec.crit_point_blank_bonus else crit2
  let crit4 := max 0 (min 100 crit3)
  min hit_total crit4

/-- Source `preview_probabilities`.  The Python expression
`weapon.spec.range_bands or S.RANGE_BANDS` falls back both on `None` and on
an empty list (truthiness), which the match reproduces. -/
def preview_probabilities (g : Grid) (shooter target : Coord) (weapon : Weapon) : ShotPreview :=
  let base_aim := S.BASE_AIM_PERCENT + weapon.spec.aim_bonus
  let rb :=
    match weapon.spec.range_bands with
    | none => S.RANGE_BANDS
    | some [] => S.RANGE_BANDS
    | some bs => bs
  let bd := compute_hit g shooter target (some base_aim) (some rb)
  if bd.los then
    let crit := _crit_for_context bd.total bd.flanked bd.cover_type bd.distSq weapon
    let graze := max 0 (min (100 - bd.total) S.GRAZE_BAND_PERCENT)
    ⟨true, bd.total, crit, graze, bd.flanked, bd.cover_type, bd.distSq,
      weapon.spec.dmg_min, weapon.spec.dmg_max,
      max 1 (roundMul weapon.spec.dmg_min weapon.spec.graze_multiplier),
      max 1 (roundMul weapon.spec.dmg_max weapon.spec.graze_multiplier),
      weapon.spec.dmg_min + weapon.spec.crit_bonus_damage,
      weapon.spec.dmg_max + weapon.spec.crit_bonus_damage⟩
  else
    ⟨false, 0, 0, 0, false, CoverType.full, bd.distSq,
      weapon.spec.dmg_min, weapon.spec.dmg_max,
      max 1 (roundMul weapon.spec.dmg_min weapon.spec.graze_multiplier),
      max 1 (roundMul weapon.spec.dmg_max weapon.spec.graze_multiplier),
      weapon.spec.dmg_min + weapon.spec.crit_bonus_damage,
      weapon.spec.dmg_max + weapon.spec.crit_bonus_damage⟩

/-- Model of `random.Random`: a stream of integers and a cursor. -/
structure RNG where
  stream : ℕ → ℤ
  idx : ℕ

/-- Model of `Random.randint(lo, hi)`: the next stream value, clamped into
`[lo, hi]`, and the advanced generator. -/
def RNG.randint (r : RNG) (lo hi : ℤ) : ℤ × RNG :=
  (max lo (min hi (r.stream r.idx)), ⟨r.stream, r.idx + 1⟩)

/-- Source `resolve_shot`: preview, then (when not blocked) one roll in
`[1, 100]`, one base-damage roll, and the crit/hit/graze/miss thresholds in
source order. -/
def resolve_shot (g : Grid) (shooter target : Coord) (rng : RNG) (weapon : Weapon) :
    ShotResult × RNG :=
  let pv := preview_probabilities g shooter target weapon
  if pv.los then
    let rolled := rng.randint 1 100
    let roll := rolled.1
    let crit_th := pv.crit_chance
    let hit_th := pv.hit_chance
    let graze_th := min 100 (pv.hit_chance + pv.graze_band)
    let based := rolled.2.randint weapon.spec.dmg_min weapon.spec.dmg_max
    let base := based.1
    if roll ≤ crit_th then
      (⟨Outcome.crit, roll, pv.hit_chance, pv.crit_chance, pv.graze_band,
        base + weapon.spec.crit_bonus_damage, pv.flanked, pv.cover_facing, pv.distSq⟩, based.2)
    else if roll ≤ hit_th then
      (⟨Outcome.hit, roll, pv.hit_chance, pv.crit_chance, pv.graze_band,
        base, pv.flanked, pv.cover_facing, pv.distSq⟩, based.2)
    else if roll ≤ graze_th then
      (⟨Outcome.graze, roll, pv.hit_chance, pv.crit_chance, pv.graze_band,
        max 1 (roundMul base weapon.spec.graze_multiplier), pv.flanked, pv.cover_facing, pv.distSq⟩,
        based.2)
    else
      (⟨Outcome.miss, roll, pv.hit_chance, pv.crit_chance, pv.graze_band,
        0, pv.flanked, pv.cover_facing, pv.distSq⟩, based.2)
  else
    (⟨Outcome.blocked, 0, 0, 0, 0, 0, false, CoverType.full, pv.distSq⟩, rng)

/-- Paths counted by `flood_fill`: `Reach start passable n v` holds when a
4-connected path of `n` hops leads from `start` to `v` with every tile after
the start satisfying `passable` (the start tile itself is exempt, as in the
source, which never tests it). -/
inductive Reach (start : Coord) (passable : Coord → Bool) : ℕ → Coord → Prop
  | zero : Reach start passable 0 start
  | step {n : ℕ} {u d : Coord} : Reach start passable n u → d ∈ dirs →
      passable (u.1 + d.1, u.2 + d.2) = true →
      Reach start passable (n + 1) (u.1 + d.1, u.2 + d.2)

/-- The finite region that `flood_fill` can ever cost: the box of radius `R`
around `start`. -/
def ballBox (start : Coord) (R : ℕ) : Finset Coord :=
  Finset.Icc (start.1 - R) (start.1 + R) ×ˢ Finset.Icc (start.2 - R) (start.2 + R)

/-- Loop invariant of `floodLoop`, tying the queue, cost map and parent map
of a state to `Reach`.  `M` is the cost ceiling, `B` the ball cardinality
bound. -/
structure FFInv (start : Coord) (pass : Coord → Bool) (M : ℤ) (st : FFState) : Prop where
  nodupKeys : (st.costs.map Prod.fst).Nodup
  startMem : dlookup start st.costs = some 0
  sound : ∀ v c, dlookup v st.costs = some c → Reach start pass c v
  bounded : ∀ v c, dlookup v st.costs = some c → (v = start ∧ c = 0) ∨ (c : ℤ) ≤ M
  qKeys : ∀ v ∈ st.q, (dlookup v st.costs).isSome
  qSorted : st.q.Pairwise (fun u w => (dlookup u st.costs).getD 0 ≤ (dlookup w st.costs).getD 0)
  frontier : ∀ v c, dlookup v st.costs = some c → ∀ u ∈ st.q,
      c ≤ (dlookup u st.costs).getD 0 + 1
  closed : ∀ v c, dlookup v st.costs = some c → v ∈ st.q ∨ M ≤ (c : ℤ) ∨
      ∀ d ∈ dirs, pass (v.1 + d.1, v.2 + d.2) = true →
        ∃ cw, dlookup (v.1 + d.1, v.2 + d.2) st.costs = some cw ∧ cw ≤ c + 1
  parentsOK : ∀ n p, dlookup n st.parents = some p → ∃ cp,
      dlookup p st.costs = some cp ∧ (cp : ℤ) < M ∧ dlookup n st.costs = some (cp + 1) ∧
      (n.1 - p.1, n.2 - p.2) ∈ dirs ∧ pass n = true ∧ n ≠ start
  parentsDom : ∀ v, v ≠ start → ((dlookup v st.costs).isSome ↔ (dlookup v st.parents).isSome)
  parentsStart : dlookup start st.parents = none
  ball : ∀ v c, dlookup v st.costs = some c →
      (v.1 - start.1).natAbs + (v.2 - start.2).natAbs ≤ c
  costLen : ∀ v c, dlookup v st.costs = some c → c < st.costs.length
  plen : st.parents.length + 1 = st.costs.length

/-- Invariant holding part-way through the expansion of a dequeued node `v`
of cost `base` in `floodLoop`: like `FFInv`, but `v` is already off the
queue and only the neighbour offsets in `ensured` have been processed so
far. -/
structure MidInv (start : Coord) (pass : Coord → Bool) (M : ℤ) (v : Coord) (base : ℕ)
    (ensured : List Coord) (st : FFState) : Prop where
  nodupKeys : (st.costs.map Prod.fst).Nodup
  startMem : dlookup start st.costs = some 0
  sound : ∀ w c, dlookup w st.costs = some c → Reach start pass c w
  bounded : ∀ w c, dlookup w st.costs = some c → (w = start ∧ c = 0) ∨ (c : ℤ) ≤ M
  qKeys : ∀ w ∈ st.q, (dlookup w st.costs).isSome
  qSorted : st.q.Pairwise (fun u u' => (dlookup u st.costs).getD 0 ≤ (dlookup u' st.costs).getD 0)
  frontier : ∀ w c, dlookup w st.costs = some c → ∀ u ∈ st.q,
      c ≤ (dlookup u st.costs).getD 0 + 1
  closedExc : ∀ w c, dlookup w st.costs = some c → w = v ∨ w ∈ st.q ∨ M ≤ (c : ℤ) ∨
      ∀ d ∈ dirs, pass (w.1 + d.1, w.2 + d.2) = true →
        ∃ cw, dlookup (w.1 + d.1, w.2 + d.2) st.costs = some cw ∧ cw ≤ c + 1
  parentsOK : ∀ n p, dlookup n st.parents = some p → ∃ cp,
      dlookup p st.costs = some cp ∧ (cp : ℤ) < M ∧ dlookup n st.costs = some (cp + 1) ∧
      (n.1 - p.1, n.2 - p.2) ∈ dirs ∧ pass n = true ∧ n ≠ start
  parentsDom : ∀ w, w ≠ start → ((dlookup w st.costs).isSome ↔ (dlookup w st.parents).isSome)
  parentsStart : dlookup start st.parents = none
  ball : ∀ w c, dlookup w st.costs = some c →
      (w.1 - start.1).natAbs + (w.2 - start.2).natAbs ≤ c
  costLen : ∀ w c, dlookup w st.costs = some c → c < st.costs.length
  plen : st.parents.length + 1 = st.costs.length
  capAll : ∀ w c, dlookup w st.costs = some c → c ≤ base + 1
  qGe : ∀ u ∈ st.q, base ≤ (dlookup u st.costs).getD 0
  vMem : dlookup v st.costs = some base
  baseLt : (base : ℤ) < M
  ensured_ok : ∀ d ∈ ensured, pass (v.1 + d.1, v.2 + d.2) = true →
      ∃ cw, dlookup (v.1 + d.1, v.2 + d.2) st.costs = some cw ∧ cw ≤ base + 1

/-- Example grid for witnesses: an open 5 by 5 map. -/
def gEx : Grid := ⟨5, 5, fun _ => false⟩

/-- Example grid for witnesses: a 3 by 1 corridor with a wall at `(1, 0)`. -/
def gWall : Grid := ⟨3, 1, fun c => c = (1, 0)⟩

/-- Example weapon for witnesses, set up to reproduce the spec's worked
example: base crit 10, point-blank bonus 15, one range band `(0, 2, +10)`. -/
def wEx : Weapon := ⟨⟨"w", "W", 0, 10, some [(0, 2, 10)], 3, 5, 2, S.GRAZE_MULTIPLIER, 5, 15⟩, 5⟩

/-- Witness random source: first draw yields `v`, later draws yield 3. -/
def rngOf (v : ℤ) : RNG := ⟨fun i => if i = 0 then v else 3, 0⟩

/-- Counterexample grid for C8: a 1 by 1 map whose blocked set contains the
four (out-of-bounds) neighbours of the only tile.  `is_blocked` tests set
membership only, so all four cardinal neighbours of `(0, 0)` count as
blocked, yet with `oob_is_full = false` no side gets full cover. -/
def gOut : Grid :=
  ⟨1, 1, fun c => c = (1, 0) ∨ c = (-1, 0) ∨ c = (0, 1) ∨ c = (0, -1)⟩

/-- Witness grid for C8: a 5 by 5 map with the four in-bounds neighbours of
`(2, 2)` blocked. -/
def gRing : Grid :=
  ⟨5, 5, fun c => c = (3, 2) ∨ c = (1, 2) ∨ c = (2, 3) ∨ c = (2, 1)⟩

/-- Bounds of `clamp`: the clamped total always lies in the configured
window. -/
theorem clamp_bounds (p : ℤ) : S.HIT_CLAMP_MIN ≤ clamp p ∧ clamp p ≤ S.HIT_CLAMP_MAX := by
  unfold clamp S.HIT_CLAMP_MIN S.HIT_CLAMP_MAX
  omega

/-- The `los` field of a hit breakdown records exactly `los_clear`. -/
theorem compute_hit_los (g : Grid) (a b : Coord) (ba : Option ℤ)
    (rb : Option (List (ℚ × ℚ × ℤ))) :
    (compute_hit g a b ba rb).los = los_clear g a b := by
  unfold compute_hit
  cases h : los_clear g a b <;> simp [h]

/-- With line of sight, the hit total is a clamped value. -/
theorem compute_hit_total_clamped (g : Grid) (a b : Coord) (ba : Option ℤ)
    (rb : Option (List (ℚ × ℚ × ℤ))) (h : los_clear g a b = true) :
    S.HIT_CLAMP_MIN ≤ (compute_hit g a b ba rb).total ∧
      (compute_hit g a b ba rb).total ≤ S.HIT_CLAMP_MAX := by
  unfold compute_hit
  simp only [h, if_true]
  exact clamp_bounds _

/-- Without line of sight, the breakdown is zeroed with no terms. -/
theorem compute_hit_blocked_fields (g : Grid) (a b : Coord) (ba : Option ℤ)
    (rb : Option (List (ℚ × ℚ × ℤ))) (h : los_clear g a b = false) :
    (compute_hit g a b ba rb).total = 0 ∧ (compute_hit g a b ba rb).terms = [] := by
  unfold compute_hit
  simp [h]

/-- C1: for every grid, shooter, target, base aim and range-band list, the
hit total of `compute_hit` lies in `[HIT_CLAMP_MIN, HIT_CLAMP_MAX]` (that
is, `[5, 95]`) whenever line of sight is clear, and is exactly 0 with an
empty term list when line of sight is not clear. -/
theorem C1_hit_total_clamped_or_zero (g : Grid) (a b : Coord) (ba : Option ℤ)
    (rb : Option (List (ℚ × ℚ × ℤ))) :
    ((compute_hit g a b ba rb).los = true →
      S.HIT_CLAMP_MIN ≤ (compute_hit g a b ba rb).total ∧
        (compute_hit g a b ba rb).total ≤ S.HIT_CLAMP_MAX) ∧
    ((compute_hit g a b ba rb).los = false →
      (compute_hit g a b ba rb).total = 0 ∧ (compute_hit g a b ba rb).terms = []) := by
  rw [compute_hit_los]
  cases h : los_clear g a b
  · exact ⟨by simp, fun _ => compute_hit_blocked_fields g a b ba rb h⟩
  · exact ⟨fun _ => compute_hit_total_clamped g a b ba rb h, by simp⟩

/-- Witness for C1: both branches evaluated on concrete scenes. -/
theorem C1_witness :
    (S.HIT_CLAMP_MIN ≤ (compute_hit gEx (0, 0) (1, 0) (some 65) (some [(0, 2, 10)])).total ∧
      (compute_hit gEx (0, 0) (1, 0) (some 65) (some [(0, 2, 10)])).total ≤ S.HIT_CLAMP_MAX) ∧
    ((compute_hit gWall (0, 0) (2, 0) none none).total = 0 ∧
      (compute_hit gWall (0, 0) (2, 0) none none).terms = []) :=
  ⟨(C1_hit_total_clamped_or_zero gEx (0, 0) (1, 0) (some 65) (some [(0, 2, 10)])).1 (by decide),
   (C1_hit_total_clamped_or_zero gWall (0, 0) (2, 0) none none).2 (by decide)⟩

/-- The `los` field of a preview records exactly `los_clear`. -/
theorem preview_los (g : Grid) (a b : Coord) (w : Weapon) :
    (preview_probabilities g a b w).los = los_clear g a b := by
  unfold preview_probabilities
  simp only [compute_hit_los]
  cases h : los_clear g a b <;> simp [h]

/-- With line of sight, the preview's graze band is the configured band
shrunk into the space above the hit chance. -/
theorem preview_graze_eq (g : Grid) (a b : Coord) (w : Weapon)
    (h : los_clear g a b = true) :
    (preview_probabilities g a b w).graze_band =
      max 0 (min (100 - (preview_probabilities g a b w).hit_chance) S.GRAZE_BAND_PERCENT) := by
  unfold preview_probabilities
  simp [compute_hit_los, h]

/-- The preview's crit chance is capped by the hit chance and lies in
`[0, 100]`, with or without line of sight. -/
theorem preview_crit_bounds (g : Grid) (a b : Coord) (w : Weapon) :
    (preview_probabilities g a b w).crit_chance ≤ (preview_probabilities g a b w).hit_chance ∧
    0 ≤ (preview_probabilities g a b w).crit_chance ∧
    (preview_probabilities g a b w).crit_chance ≤ 100 := by
  cases hl : los_clear g a b
  · unfold preview_probabilities
    simp [compute_hit_los, hl]
  · have h5 : (0 : ℤ) ≤ S.HIT_CLAMP_MIN := by unfold S.HIT_CLAMP_MIN; omega
    have htot2 := compute_hit_total_clamped g a b
      (some (S.BASE_AIM_PERCENT + w.spec.aim_bonus))
      (some (match w.spec.range_bands with
        | none => S.RANGE_BANDS
        | some [] => S.RANGE_BANDS
        | some bs => bs)) hl
    unfold preview_probabilities
    simp only [compute_hit_los, hl, if_true]
    unfold _crit_for_context
    simp only
    refine ⟨min_le_left _ _, ?_, ?_⟩ <;> omega

/-- The model of `randint lo hi` stays within `[lo, hi]` when the range is
sound. -/
theorem randint_bounds (r : RNG) (lo hi : ℤ) (hlohi : lo ≤ hi) :
    lo ≤ (r.randint lo hi).1 ∧ (r.randint lo hi).1 ≤ hi := by
  unfold RNG.randint
  simp only
  omega

/-- C4: for every preview with line of sight clear, the graze band equals
`max(0, min(100 - hit_chance, GRAZE_BAND_PERCENT))`. -/
theorem C4_graze_band (g : Grid) (a b : Coord) (w : Weapon)
    (h : (preview_probabilities g a b w).los = true) :
    (preview_probabilities g a b w).graze_band =
      max 0 (min (100 - (preview_probabilities g a b w).hit_chance) S.GRAZE_BAND_PERCENT) := by
  rw [preview_los] at h
  exact preview_graze_eq g a b w h

/-- Witness for C4 on the open 5 by 5 map. -/
theorem C4_witness :
    (preview_probabilities gEx (0, 0) (1, 0) wEx).graze_band =
      max 0 (min (100 - (preview_probabilities gEx (0, 0) (1, 0) wEx).hit_chance)
        S.GRAZE_BAND_PERCENT) :=
  C4_graze_band gEx (0, 0) (1, 0) wEx (by decide)

/-- C5: without line of sight, `resolve_shot` returns a blocked result with
roll, chances, band and damage all zero, and consumes no randomness (the
random source is returned unchanged). -/
theorem C5_blocked_shot (g : Grid) (a b : Coord) (rng : RNG) (w : Weapon)
    (h : los_clear g a b = false) :
    (resolve_shot g a b rng w).1.outcome = Outcome.blocked ∧
    (resolve_shot g a b rng w).1.damage = 0 ∧
    (resolve_shot g a b rng w).1.roll = 0 ∧
    (resolve_shot g a b rng w).1.hit_chance = 0 ∧
    (resolve_shot g a b rng w).1.crit_chance = 0 ∧
    (resolve_shot g a b rng w).1.graze_band = 0 ∧
    (resolve_shot g a b rng w).2 = rng := by
  have hp : (preview_probabilities g a b w).los = false := by rw [preview_los, h]
  unfold resolve_shot
  simp [hp]

/-- Witness for C5 behind the corridor wall. -/
theorem C5_witness :
    (resolve_shot gWall (0, 0) (2, 0) (rngOf 40) wEx).1.outcome = Outcome.blocked ∧
    (resolve_shot gWall (0, 0) (2, 0) (rngOf 40) wEx).1.damage = 0 ∧
    (resolve_shot gWall (0, 0) (2, 0) (rngOf 40) wEx).1.roll = 0 ∧
    (resolve_shot gWall (0, 0) (2, 0) (rngOf 40) wEx).1.hit_chance = 0 ∧
    (resolve_shot gWall (0, 0) (2, 0) (rngOf 40) wEx).1.crit_chance = 0 ∧
    (resolve_shot gWall (0, 0) (2, 0) (rngOf 40) wEx).1.graze_band = 0 ∧
    (resolve_shot gWall (0, 0) (2, 0) (rngOf 40) wEx).2 = rngOf 40 :=
  C5_blocked_shot gWall (0, 0) (2, 0) (rngOf 40) wEx (by decide)

/-- C3: in every preview the effective crit chance is at most the hit chance
and lies in `[0, 100]`; with line of sight it is exactly the raw crit (base
crit, flank bonus, cover penalty for the same facing side used for the hit,
point-blank bonus below two tiles) clamped to `[0, 100]` and capped at the
hit chance. -/
theorem C3_crit_capped (g : Grid) (a b : Coord) (w : Weapon) :
    ((preview_probabilities g a b w).crit_chance ≤ (preview_probabilities g a b w).hit_chance ∧
      0 ≤ (preview_probabilities g a b w).crit_chance ∧
      (preview_probabilities g a b w).crit_chance ≤ 100) ∧
    ((preview_probabilities g a b w).los = true →
      (preview_probabilities g a b w).crit_chance =
        min (preview_probabilities g a b w).hit_chance (max 0 (min 100
          (w.spec.base_crit
            + (if (preview_probabilities g a b w).flanked then S.CRIT_FLANK_BONUS else 0)
            + (if (preview_probabilities g a b w).cover_facing = CoverType.half then
                S.CRIT_HALF_COVER_PENALTY
              else if (preview_probabilities g a b w).cover_facing = CoverType.full then
                S.CRIT_FULL_COVER_PENALTY
              else 0)
            + (if sqrtLt (preview_probabilities g a b w).distSq 2 then
                w.spec.crit_point_blank_bonus
              else 0))))) := by
  refine ⟨preview_crit_bounds g a b w, ?_⟩
  intro h
  rw [preview_los] at h
  unfold preview_probabilities
  simp only [compute_hit_los, h, if_true]
  unfold _crit_for_context
  simp only
  split_ifs <;> simp_all

/-- Witness for C3: the structural crit equation on the worked example. -/
theorem C3_witness :
    (preview_probabilities gEx (0, 0) (1, 0) wEx).crit_chance =
      min (preview_probabilities gEx (0, 0) (1, 0) wEx).hit_chance (max 0 (min 100
        (wEx.spec.base_crit
          + (if (preview_probabilities gEx (0, 0) (1, 0) wEx).flanked then
              S.CRIT_FLANK_BONUS else 0)
          + (if (preview_probabilities gEx (0, 0) (1, 0) wEx).cover_facing = CoverType.half then
              S.CRIT_HALF_COVER_PENALTY
            else if (preview_probabilities gEx (0, 0) (1, 0) wEx).cover_facing = CoverType.full then
              S.CRIT_FULL_COVER_PENALTY
            else 0)
          + (if sqrtLt (preview_probabilities gEx (0, 0) (1, 0) wEx).distSq 2 then
              wEx.spec.crit_point_blank_bonus
            else 0)))) :=
  (C3_crit_capped gEx (0, 0) (1, 0) wEx).2 (by decide)

/-- C2: with line of sight, `resolve_shot` classifies its single roll by the
thresholds in source order: crit up to `crit_chance` (damage is the rolled
base plus the crit bonus), hit up to `hit_chance` (rolled base), graze up to
`min(100, hit_chance + graze_band)` (damage `max(1, round(base * graze
multiplier))`), else miss with damage 0. -/
theorem C2_resolve_thresholds (g : Grid) (a b : Coord) (rng : RNG) (w : Weapon)
    (h : (preview_probabilities g a b w).los = true) :
    (resolve_shot g a b rng w).1.roll = (rng.randint 1 100).1 ∧
    ((rng.randint 1 100).1 ≤ (preview_probabilities g a b w).crit_chance →
      (resolve_shot g a b rng w).1.outcome = Outcome.crit ∧
      (resolve_shot g a b rng w).1.damage =
        ((rng.randint 1 100).2.randint w.spec.dmg_min w.spec.dmg_max).1
          + w.spec.crit_bonus_damage) ∧
    ((preview_probabilities g a b w).crit_chance < (rng.randint 1 100).1 →
      (rng.randint 1 100).1 ≤ (preview_probabilities g a b w).hit_chance →
      (resolve_shot g a b rng w).1.outcome = Outcome.hit ∧
      (resolve_shot g a b rng w).1.damage =
        ((rng.randint 1 100).2.randint w.spec.dmg_min w.spec.dmg_max).1) ∧
    ((preview_probabilities g a b w).hit_chance < (rng.randint 1 100).1 →
      (rng.randint 1 100).1 ≤ min 100 ((preview_probabilities g a b w).hit_chance
          + (preview_probabilities g a b w).graze_band) →
      (resolve_shot g a b rng w).1.outcome = Outcome.graze ∧
      (resolve_shot g a b rng w).1.damage =
        max 1 (roundMul ((rng.randint 1 100).2.randint w.spec.dmg_min w.spec.dmg_max).1
          w.spec.graze_multiplier)) ∧
    (min 100 ((preview_probabilities g a b w).hit_chance
        + (preview_probabilities g a b w).graze_band) < (rng.randint 1 100).1 →
      (resolve_shot g a b rng w).1.outcome = Outcome.miss ∧
      (resolve_shot g a b rng w).1.damage = 0) := by
  have hch := preview_crit_bounds g a b w
  have hroll := randint_bounds rng 1 100 (by omega)
  have hgr : 0 ≤ (preview_probabilities g a b w).graze_band := by
    rw [preview_graze_eq g a b w (by rw [← preview_los g a b w]; exact h)]
    omega
  unfold resolve_shot
  simp only [h, if_true]
  split_ifs with h1 h2 h3 <;>
    refine ⟨rfl, ?_, ?_, ?_, ?_⟩ <;> intros <;> first | exact ⟨rfl, rfl⟩ | omega

/-- Witness for C2: the spec's worked example hits 95/45/5 and each of the
rolls 40, 70, 96, 100 lands in the claimed band (100 is a graze, not a
miss). -/
theorem C2_witness :
    (preview_probabilities gEx (0, 0) (1, 0) wEx).hit_chance = 95 ∧
    (preview_probabilities gEx (0, 0) (1, 0) wEx).crit_chance = 45 ∧
    (preview_probabilities gEx (0, 0) (1, 0) wEx).graze_band = 5 ∧
    (resolve_shot gEx (0, 0) (1, 0) (rngOf 40) wEx).1.outcome = Outcome.crit ∧
    (resolve_shot gEx (0, 0) (1, 0) (rngOf 70) wEx).1.outcome = Outcome.hit ∧
    (resolve_shot gEx (0, 0) (1, 0) (rngOf 96) wEx).1.outcome = Outcome.graze ∧
    (resolve_shot gEx (0, 0) (1, 0) (rngOf 100) wEx).1.outcome = Outcome.graze := by
  refine ⟨by decide, by decide, by decide, ?_, ?_, ?_, ?_⟩
  · exact ((C2_resolve_thresholds gEx (0, 0) (1, 0) (rngOf 40) wEx
      (by decide)).2.1 (by decide)).1
  · exact ((C2_resolve_thresholds gEx (0, 0) (1, 0) (rngOf 70) wEx
      (by decide)).2.2.1 (by decide) (by decide)).1
  · exact ((C2_resolve_thresholds gEx (0, 0) (1, 0) (rngOf 96) wEx
      (by decide)).2.2.2.1 (by decide) (by decide)).1
  · exact ((C2_resolve_thresholds gEx (0, 0) (1, 0) (rngOf 100) wEx
      (by decide)).2.2.2.1 (by decide) (by decide)).1

/-- Counterexample for C8 as stated: on `gOut` the tile `(0, 0)` is in
bounds and its four cardinal neighbours are all blocked (`is_blocked` is a
pure membership test), yet with `oob_is_full = false` the computed cover is
`none` on every side, not `full`. -/
theorem C8_counterexample :
    gOut.in_bounds 0 0 = true ∧
    gOut.is_blocked (0 + (sideDir Side.N).1) (0 + (sideDir Side.N).2) = true ∧
    gOut.is_blocked (0 + (sideDir Side.E).1) (0 + (sideDir Side.E).2) = true ∧
    gOut.is_blocked (0 + (sideDir Side.S).1) (0 + (sideDir Side.S).2) = true ∧
    gOut.is_blocked (0 + (sideDir Side.W).1) (0 + (sideDir Side.W).2) = true ∧
    compute_tile_cover gOut 0 0 false Side.N ≠ CoverType.full ∧
    compute_tile_cover gOut 0 0 false Side.N = CoverType.none := by
  decide

/-- C8 (amended): an in-bounds tile whose four cardinal neighbours are all
blocked gets full cover on all four sides regardless of diagonal occupancy,
provided each blocked neighbour is in bounds or `oob_is_full` is set (an
out-of-bounds member of the blocked set yields full only via `oob_is_full`);
and on a map with an empty blocked set and `oob_is_full = false`, every side
of every tile is `none`. -/
theorem C8_cover_edge_cases (g : Grid) (col row : ℤ) (oob : Bool) :
    ((g.in_bounds col row = true) →
      (∀ s : Side, g.is_blocked (col + (sideDir s).1) (row + (sideDir s).2) = true) →
      (∀ s : Side, g.in_bounds (col + (sideDir s).1) (row + (sideDir s).2) = true ∨ oob = true) →
      ∀ s : Side, compute_tile_cover g col row oob s = CoverType.full) ∧
    ((∀ c : Coord, g.blocked c = false) →
      ∀ s : Side, compute_tile_cover g col row false s = CoverType.none) := by
  constructor
  · intro _ hb hbin s
    have hbs := hb s
    unfold compute_tile_cover
    simp only
    rcases hbin s with hin2 | hoob
    · simp [hin2, hbs]
    · subst hoob
      simp [hbs]
  · intro hempty s
    unfold compute_tile_cover
    simp [Grid.is_blocked, hempty]

/-- Witness for C8: full cover on all sides of the ringed tile of `gRing`,
and no cover anywhere on the open map. -/
theorem C8_witness :
    (compute_tile_cover gRing 2 2 false Side.N = CoverType.full ∧
      compute_tile_cover gRing 2 2 false Side.E = CoverType.full ∧
      compute_tile_cover gRing 2 2 false Side.S = CoverType.full ∧
      compute_tile_cover gRing 2 2 false Side.W = CoverType.full) ∧
    (compute_tile_cover gEx 2 2 false Side.N = CoverType.none ∧
      compute_tile_cover gEx 2 2 false Side.E = CoverType.none ∧
      compute_tile_cover gEx 2 2 false Side.S = CoverType.none ∧
      compute_tile_cover gEx 2 2 false Side.W = CoverType.none) := by
  have h1 := (C8_cover_edge_cases gRing 2 2 false).1 (by decide)
    (fun s => by cases s <;> decide) (fun s => Or.inl (by cases s <;> decide))
  have h2 := (C8_cover_edge_cases gEx 2 2 false).2 (fun _ => rfl)
  exact ⟨⟨h1 Side.N, h1 Side.E, h1 Side.S, h1 Side.W⟩,
    ⟨h2 Side.N, h2 Side.E, h2 Side.S, h2 Side.W⟩⟩

/-- Pushing a head onto a list with a known last element keeps that last
element. -/
theorem getLast_cons_some {α : Type} (a z : α) (l : List α) (h : l.getLast? = some z) :
    (a :: l).getLast? = some z := by
  cases l with
  | nil => simp at h
  | cons b t => rw [List.getLast?_cons_cons]; exact h

/-- One unfolding of the `bresenham_line` loop when the endpoint is not yet
reached. -/
theorem bresAux_succ (x1 y1 dx dy sx sy : ℤ) (f : ℕ) (x0 y0 err : ℤ)
    (h : ¬(x0 = x1 ∧ y0 = y1)) :
    bresAux x1 y1 dx dy sx sy (f + 1) x0 y0 err =
      (x0, y0) :: bresAux x1 y1 dx dy sx sy f
        (if dy ≤ 2 * err then x0 + sx else x0)
        (if 2 * err ≤ dx then y0 + sy else y0)
        (if 2 * err ≤ dx then (if dy ≤ 2 * err then err + dy else err) + dx
         else (if dy ≤ 2 * err then err + dy else err)) := by
  simp only [bresAux]
  rw [if_neg h]

/-- The first emitted tile of a fuelled `bresenham_line` run is the current
position. -/
theorem bresAux_head (x1 y1 dx dy sx sy : ℤ) (f : ℕ) (x0 y0 err : ℤ) :
    (bresAux x1 y1 dx dy sx sy (f + 1) x0 y0 err).head? = some (x0, y0) := by
  simp [bresAux]

/-- Main invariant run of the Bresenham loop.  With `p` and `q` the
remaining axis distances and the error term in its invariant shape
`dx*(steps_y+1) + dy*(steps_x+1)`, the loop never oversteps either axis,
always advances, and reaches `(x1, y1)` as its last emitted tile before the
fuel runs out. -/
theorem bresAux_runs (x1 y1 : ℤ) (dxn D : ℕ) (sx sy : ℤ)
    (hsx : sx = 1 ∨ sx = -1) (hsy : sy = 1 ∨ sy = -1) :
    ∀ (fuel p q : ℕ), p ≤ dxn → q ≤ D → p + q < fuel →
      (bresAux x1 y1 (dxn : ℤ) (-(D : ℤ)) sx sy fuel
        (x1 - sx * (p : ℤ)) (y1 - sy * (q : ℤ))
        ((dxn : ℤ) * ((D : ℤ) - (q : ℤ) + 1) - (D : ℤ) * ((dxn : ℤ) - (p : ℤ) + 1))).getLast?
        = some (x1, y1) := by
  intro fuel
  induction fuel with
  | zero => intro p q _ _ hf; omega
  | succ f ih =>
    intro p q hp hq hf
    by_cases hzero : p = 0 ∧ q = 0
    · obtain ⟨hp0, hq0⟩ := hzero
      subst hp0; subst hq0
      simp [bresAux]
    · have hcond : ¬(x1 - sx * (p : ℤ) = x1 ∧ y1 - sy * (q : ℤ) = y1) := by
        rintro ⟨h1, h2⟩
        apply hzero
        constructor
        · rcases hsx with h | h <;> subst h <;> omega
        · rcases hsy with h | h <;> subst h <;> omega
      rw [bresAux_succ _ _ _ _ _ _ _ _ _ _ hcond]
      have hpz : (p : ℤ) ≤ (dxn : ℤ) := by exact_mod_cast hp
      have hqz : (q : ℤ) ≤ (D : ℤ) := by exact_mod_cast hq
      set dxz : ℤ := (dxn : ℤ) with hdxz
      set Dz : ℤ := (D : ℤ) with hDz
      have hdx0 : 0 ≤ dxz := by positivity
      have hD0 : 0 ≤ Dz := by positivity
      set err : ℤ := dxz * (Dz - (q : ℤ) + 1) - Dz * (dxz - (p : ℤ) + 1) with herr
      -- no overstep in x: when p = 0 the x-step test fails
      have hnoX : p = 0 → ¬(-Dz ≤ 2 * err) := by
        intro hp0 hX
        have hq1 : 1 ≤ (q : ℤ) := by
          have : q ≠ 0 := fun h => hzero ⟨hp0, h⟩
          omega
        rw [herr, hp0] at hX
        push_cast at hX
        nlinarith [mul_nonneg (by linarith : (0 : ℤ) ≤ (q : ℤ) - 1) hdx0]
      -- no overstep in y: when q = 0 the y-step test fails
      have hnoY : q = 0 → ¬(2 * err ≤ dxz) := by
        intro hq0 hY
        have hp1 : 1 ≤ (p : ℤ) := by
          have : p ≠ 0 := fun h => hzero ⟨h, hq0⟩
          omega
        rw [herr, hq0] at hY
        push_cast at hY
        nlinarith [mul_nonneg hD0 (by linarith : (0 : ℤ) ≤ (p : ℤ) - 1)]
      -- the loop always advances
      have hone : ¬(-Dz ≤ 2 * err) → 2 * err ≤ dxz := by intro h; linarith
      by_cases hX : -Dz ≤ 2 * err <;> by_cases hY : 2 * err ≤ dxz
      · -- diagonal step
        have hp1 : 1 ≤ p := by
          rcases Nat.eq_zero_or_pos p with h | h
          · exact absurd hX (hnoX h)
          · omega
        have hq1 : 1 ≤ q := by
          rcases Nat.eq_zero_or_pos q with h | h
          · exact absurd hY (hnoY h)
          · omega
        rw [if_pos hX, if_pos hY, if_pos hY, if_pos hX]
        have hx : x1 - sx * (p : ℤ) + sx = x1 - sx * ((p - 1 : ℕ) : ℤ) := by
          push_cast [hp1]; ring
        have hy : y1 - sy * (q : ℤ) + sy = y1 - sy * ((q - 1 : ℕ) : ℤ) := by
          push_cast [hq1]; ring
        have he : err + -Dz + dxz =
            dxz * (Dz - ((q - 1 : ℕ) : ℤ) + 1) - Dz * (dxz - ((p - 1 : ℕ) : ℤ) + 1) := by
          rw [herr]; push_cast [hp1, hq1]; ring
        rw [hx, hy, he]
        exact getLast_cons_some _ _ _ (ih (p - 1) (q - 1) (by omega) (by omega) (by omega))
      · -- x-only step
        have hp1 : 1 ≤ p := by
          rcases Nat.eq_zero_or_pos p with h | h
          · exact absurd hX (hnoX h)
          · omega
        rw [if_pos hX, if_neg hY, if_neg hY, if_pos hX]
        have hx : x1 - sx * (p : ℤ) + sx = x1 - sx * ((p - 1 : ℕ) : ℤ) := by
          push_cast [hp1]; ring
        have he : err + -Dz =
            dxz * (Dz - (q : ℤ) + 1) - Dz * (dxz - ((p - 1 : ℕ) : ℤ) + 1) := by
          rw [herr]; push_cast [hp1]; ring
        rw [hx, he]
        exact getLast_cons_some _ _ _ (ih (p - 1) q (by omega) hq (by omega))
      · -- y-only step
        have hq1 : 1 ≤ q := by
          rcases Nat.eq_zero_or_pos q with h | h
          · exact absurd hY (hnoY h)
          · omega
        rw [if_neg hX, if_pos hY, if_pos hY, if_neg hX]
        have hy : y1 - sy * (q : ℤ) + sy = y1 - sy * ((q - 1 : ℕ) : ℤ) := by
          push_cast [hq1]; ring
        have he : err + dxz =
            dxz * (Dz - ((q - 1 : ℕ) : ℤ) + 1) - Dz * (dxz - (p : ℤ) + 1) := by
          rw [herr]; push_cast [hq1]; ring
        rw [hy, he]
        exact getLast_cons_some _ _ _ (ih p (q - 1) hp (by omega) (by omega))
      · exact absurd (hone hX) hY

/-- C9: for every pair of coordinates, the Bresenham trace terminates with a
finite list whose first element is the origin and whose last element is the
destination; equal endpoints give the one-element list.  (As a Lean
function the trace is deterministic and pure by construction.) -/
theorem C9_bresenham_endpoints (a b : Coord) :
    (bresenham_line a b).head? = some a ∧
    (bresenham_line a b).getLast? = some b ∧
    (a = b → bresenham_line a b = [a]) := by
  refine ⟨?_, ?_, ?_⟩
  · simp only [bresenham_line]
    rw [bresAux_head]
  · have hsx : (if a.1 < b.1 then (1 : ℤ) else -1) = 1 ∨
        (if a.1 < b.1 then (1 : ℤ) else -1) = -1 := by
      by_cases h : a.1 < b.1 <;> simp [h]
    have hsy : (if a.2 < b.2 then (1 : ℤ) else -1) = 1 ∨
        (if a.2 < b.2 then (1 : ℤ) else -1) = -1 := by
      by_cases h : a.2 < b.2 <;> simp [h]
    have key := bresAux_runs b.1 b.2 (b.1 - a.1).natAbs (b.2 - a.2).natAbs
      (if a.1 < b.1 then (1 : ℤ) else -1) (if a.2 < b.2 then (1 : ℤ) else -1) hsx hsy
      ((b.1 - a.1).natAbs + (b.2 - a.2).natAbs + 1)
      (b.1 - a.1).natAbs (b.2 - a.2).natAbs le_rfl le_rfl (by omega)
    have e1 : b.1 - (if a.1 < b.1 then (1 : ℤ) else -1) * ((b.1 - a.1).natAbs : ℤ) = a.1 := by
      split_ifs <;> omega
    have e2 : b.2 - (if a.2 < b.2 then (1 : ℤ) else -1) * ((b.2 - a.2).natAbs : ℤ) = a.2 := by
      split_ifs <;> omega
    have e3 : ((b.1 - a.1).natAbs : ℤ) * (((b.2 - a.2).natAbs : ℤ) - ((b.2 - a.2).natAbs : ℤ) + 1)
        - ((b.2 - a.2).natAbs : ℤ) * (((b.1 - a.1).natAbs : ℤ) - ((b.1 - a.1).natAbs : ℤ) + 1)
        = ((b.1 - a.1).natAbs : ℤ) + -((b.2 - a.2).natAbs : ℤ) := by
      ring
    rw [e1, e2, e3] at key
    simp only [bresenham_line]
    rw [show |b.1 - a.1| = ((b.1 - a.1).natAbs : ℤ) from Int.abs_eq_natAbs _,
      show |b.2 - a.2| = ((b.2 - a.2).natAbs : ℤ) from Int.abs_eq_natAbs _]
    exact key
  · intro h
    subst h
    simp [bresenham_line, bresAux]

/-- Witness for C9: endpoints of a concrete diagonal trace and of a
degenerate one. -/
theorem C9_witness :
    (bresenham_line (0, 0) (3, 2)).head? = some (0, 0) ∧
    (bresenham_line (0, 0) (3, 2)).getLast? = some (3, 2) ∧
    bresenham_line (1, 1) (1, 1) = [(1, 1)] :=
  ⟨(C9_bresenham_endpoints (0, 0) (3, 2)).1,
   (C9_bresenham_endpoints (0, 0) (3, 2)).2.1,
   (C9_bresenham_endpoints (1, 1) (1, 1)).2.2 rfl⟩

/-- Unfolding of `dlookup` on a cons cell. -/
theorem dlookup_cons {β : Type} (k k' : Coord) (v : β) (l : List (Coord × β)) :
    dlookup k ((k', v) :: l) = if k' = k then some v else dlookup k l := rfl

/-- A key has a lookup result exactly when it appears among the keys. -/
theorem dlookup_isSome_iff {β : Type} (k : Coord) (l : List (Coord × β)) :
    (dlookup k l).isSome ↔ k ∈ l.map Prod.fst := by
  induction l with
  | nil => simp [dlookup]
  | cons kv rest ih =>
    obtain ⟨k', v⟩ := kv
    by_cases h : k' = k <;> simp [dlookup, h, ih]
    exact fun he => absurd he.symm h

/-- A key is absent exactly when it does not appear among the keys. -/
theorem dlookup_eq_none_iff {β : Type} (k : Coord) (l : List (Coord × β)) :
    dlookup k l = none ↔ k ∉ l.map Prod.fst := by
  rw [← dlookup_isSome_iff, Option.not_isSome_iff_eq_none]

/-- Inserting a fresh key leaves every present key's lookup unchanged. -/
theorem dlookup_cons_of_some {β : Type} {k n : Coord} {val c : β} {l : List (Coord × β)}
    (hn : dlookup n l = none) (hk : dlookup k l = some c) :
    dlookup k ((n, val) :: l) = some c := by
  have hne : n ≠ k := by
    intro he
    rw [he, hk] at hn
    cases hn
  rw [dlookup_cons, if_neg hne]
  exact hk

/-- Reading an extended dictionary: either the new key was hit or the old
dictionary answers. -/
theorem dlookup_cons_elim {β : Type} {k n : Coord} {val c : β} {l : List (Coord × β)}
    (h : dlookup k ((n, val) :: l) = some c) :
    (n = k ∧ val = c) ∨ (n ≠ k ∧ dlookup k l = some c) := by
  rw [dlookup_cons] at h
  by_cases hn : n = k
  · rw [if_pos hn] at h
    exact Or.inl ⟨hn, by injection h⟩
  · rw [if_neg hn] at h
    exact Or.inr ⟨hn, h⟩

/-- Cardinality of the coordinate box of radius `R`. -/
theorem ballBox_card (start : Coord) (R : ℕ) :
    (ballBox start R).card = (2 * R + 1) ^ 2 := by
  unfold ballBox
  rw [Finset.card_product, Int.card_Icc, Int.card_Icc]
  have h1 : (start.1 + (R : ℤ) + 1 - (start.1 - (R : ℤ))).toNat = 2 * R + 1 := by omega
  have h2 : (start.2 + (R : ℤ) + 1 - (start.2 - (R : ℤ))).toNat = 2 * R + 1 := by omega
  rw [h1, h2, sq]

/-- Coordinates within L1 distance `R` of `start` lie in the box. -/
theorem mem_ballBox (start v : Coord) (R : ℕ)
    (h : (v.1 - start.1).natAbs + (v.2 - start.2).natAbs ≤ R) : v ∈ ballBox start R := by
  unfold ballBox
  rw [Finset.mem_product, Finset.mem_Icc, Finset.mem_Icc]
  omega

/-- A duplicate-free list of keys inside the radius-`R` box has at most
`(2R+1)^2` entries. -/
theorem keys_length_le_ball {β : Type} (start : Coord) (R : ℕ) (l : List (Coord × β))
    (hnd : (l.map Prod.fst).Nodup)
    (hball : ∀ k ∈ l.map Prod.fst, k ∈ ballBox start R) :
    l.length ≤ (2 * R + 1) ^ 2 := by
  have hlen : l.length = (l.map Prod.fst).length := (List.length_map _ _).symm
  rw [hlen, ← List.toFinset_card_of_nodup hnd, ← ballBox_card start R]
  exact Finset.card_le_card fun x hx => hball x (List.mem_toFinset.mp hx)

/-- Every direction offset has L1 norm one. -/
theorem dirs_natAbs {d : Coord} (hd : d ∈ dirs) : d.1.natAbs + d.2.natAbs = 1 := by
  fin_cases hd <;> decide

/-- Under the invariant with a nonnegative ceiling, the cost dictionary
fits in the radius-`M` box. -/
theorem inv_costs_le (start : Coord) (pass : Coord → Bool) (M : ℤ) (st : FFState)
    (hM : 0 ≤ M) (hinv : FFInv start pass M st) :
    st.costs.length ≤ (2 * M.toNat + 1) ^ 2 := by
  apply keys_length_le_ball start M.toNat st.costs hinv.nodupKeys
  intro k hk
  have hs : (dlookup k st.costs).isSome := (dlookup_isSome_iff k st.costs).mpr hk
  obtain ⟨c, hc⟩ := Option.isSome_iff_exists.mp hs
  have hb := hinv.ball k c hc
  have hbd := hinv.bounded k c hc
  apply mem_ballBox
  rcases hbd with ⟨_, h0⟩ | hle <;> omega

/-- Case analysis of one neighbour step: either the state is unchanged
(neighbour impassable or already costed) or the neighbour is fresh and gets
costed, parented and enqueued. -/
theorem stepNbr_eq_or (pass : Coord → Bool) (v : Coord) (base : ℕ) (st : FFState) (d : Coord) :
    (stepNbr pass v base st d = st ∧
      (pass (v.1 + d.1, v.2 + d.2) = false ∨ (dlookup (v.1 + d.1, v.2 + d.2) st.costs).isSome)) ∨
    (pass (v.1 + d.1, v.2 + d.2) = true ∧ dlookup (v.1 + d.1, v.2 + d.2) st.costs = none ∧
      stepNbr pass v base st d =
        ⟨st.q ++ [(v.1 + d.1, v.2 + d.2)], ((v.1 + d.1, v.2 + d.2), base + 1) :: st.costs,
          ((v.1 + d.1, v.2 + d.2), v) :: st.parents⟩) := by
  unfold stepNbr
  by_cases h1 : pass (v.1 + d.1, v.2 + d.2)
  · by_cases h2 : (dlookup (v.1 + d.1, v.2 + d.2) st.costs).isSome
    · left
      exact ⟨by simp [h1, h2], Or.inr h2⟩
    · right
      exact ⟨h1, Option.not_isSome_iff_eq_none.mp h2, by simp [h1, h2]⟩
  · left
    refine ⟨by simp [h1], Or.inl ?_⟩
    simpa using h1

/-- One neighbour step of the expansion preserves the mid-expansion
invariant and adds the processed offset to the ensured set. -/
theorem stepNbr_mid (start : Coord) (pass : Coord → Bool) (M : ℤ) (v : Coord) (base : ℕ)
    (E : List Coord) (st : FFState) (d : Coord) (hd : d ∈ dirs)
    (hmid : MidInv start pass M v base E st) :
    MidInv start pass M v base (d :: E) (stepNbr pass v base st d) := by
  rcases stepNbr_eq_or pass v base st d with ⟨heq, hwhy⟩ | ⟨hpass, hnone, heq⟩
  · rw [heq]
    refine ⟨hmid.nodupKeys, hmid.startMem, hmid.sound, hmid.bounded, hmid.qKeys, hmid.qSorted,
      hmid.frontier, hmid.closedExc, hmid.parentsOK, hmid.parentsDom, hmid.parentsStart,
      hmid.ball, hmid.costLen, hmid.plen, hmid.capAll, hmid.qGe, hmid.vMem, hmid.baseLt, ?_⟩
    intro d' hd' hp
    rcases List.mem_cons.mp hd' with rfl | hmem
    · rcases hwhy with hf | hs
      · rw [hp] at hf
        cases hf
      · obtain ⟨cw, hcw⟩ := Option.isSome_iff_exists.mp hs
        exact ⟨cw, hcw, hmid.capAll _ _ hcw⟩
    · exact hmid.ensured_ok d' hmem hp
  · rw [heq]
    have hnv : (v.1 + d.1, v.2 + d.2) ≠ v := by
      intro he
      have hv2 := hmid.vMem
      rw [← he, hnone] at hv2
      cases hv2
    have hnstart : (v.1 + d.1, v.2 + d.2) ≠ start := by
      intro he
      have hst := hmid.startMem
      rw [← he, hnone] at hst
      cases hst
    have hfresh : ∀ {k : Coord} {c : ℕ}, dlookup k st.costs = some c →
        dlookup k (((v.1 + d.1, v.2 + d.2), base + 1) :: st.costs) = some c :=
      fun hk => dlookup_cons_of_some hnone hk
    have hnewlk : dlookup (v.1 + d.1, v.2 + d.2)
        (((v.1 + d.1, v.2 + d.2), base + 1) :: st.costs) = some (base + 1) := by
      rw [dlookup_cons, if_pos rfl]
    have hparfresh : dlookup (v.1 + d.1, v.2 + d.2) st.parents = none := by
      have hiff := hmid.parentsDom _ hnstart
      have h1 : ¬(dlookup (v.1 + d.1, v.2 + d.2) st.costs).isSome := by
        rw [hnone]; simp
      have h2 : ¬(dlookup (v.1 + d.1, v.2 + d.2) st.parents).isSome :=
        fun hs => h1 (hiff.mpr hs)
      exact Option.not_isSome_iff_eq_none.mp h2
    have hpfresh : ∀ {k p : Coord}, dlookup k st.parents = some p →
        dlookup k (((v.1 + d.1, v.2 + d.2), v) :: st.parents) = some p :=
      fun hk => dlookup_cons_of_some hparfresh hk
    have helim : ∀ {k : Coord} {c : ℕ},
        dlookup k (((v.1 + d.1, v.2 + d.2), base + 1) :: st.costs) = some c →
        (k = (v.1 + d.1, v.2 + d.2) ∧ c = base + 1) ∨
        (k ≠ (v.1 + d.1, v.2 + d.2) ∧ dlookup k st.costs = some c) := by
      intro k c h
      rcases dlookup_cons_elim h with ⟨h1, h2⟩ | ⟨h1, h2⟩
      · exact Or.inl ⟨h1.symm, h2.symm⟩
      · exact Or.inr ⟨fun he => h1 he.symm, h2⟩
    have hgetD : ∀ u ∈ st.q, dlookup u (((v.1 + d.1, v.2 + d.2), base + 1) :: st.costs)
        = dlookup u st.costs := by
      intro u hu
      obtain ⟨cu, hcu⟩ := Option.isSome_iff_exists.mp (hmid.qKeys u hu)
      rw [hcu, hfresh hcu]
    refine ⟨?_, ?_, ?_, ?_, ?_, ?_, ?_, ?_, ?_, ?_, ?_, ?_, ?_, ?_, ?_, ?_, ?_, hmid.baseLt, ?_⟩
    · -- nodupKeys
      rw [List.map_cons]
      exact List.nodup_cons.mpr ⟨(dlookup_eq_none_iff _ st.costs).mp hnone, hmid.nodupKeys⟩
    · -- startMem
      exact hfresh hmid.startMem
    · -- sound
      intro w c h
      rcases helim h with ⟨rfl, rfl⟩ | ⟨_, hold⟩
      · exact Reach.step (hmid.sound v base hmid.vMem) hd hpass
      · exact hmid.sound w c hold
    · -- bounded
      intro w c h
      rcases helim h with ⟨rfl, rfl⟩ | ⟨_, hold⟩
      · right
        have := hmid.baseLt
        push_cast
        omega
      · exact hmid.bounded w c hold
    · -- qKeys
      intro w hw
      rcases List.mem_append.mp hw with hq | hsing
      · obtain ⟨cu, hcu⟩ := Option.isSome_iff_exists.mp (hmid.qKeys w hq)
        exact Option.isSome_iff_exists.mpr ⟨cu, hfresh hcu⟩
      · rw [List.mem_singleton.mp hsing]
        exact Option.isSome_iff_exists.mpr ⟨base + 1, hnewlk⟩
    · -- qSorted
      rw [List.pairwise_append]
      refine ⟨?_, by simp, ?_⟩
      · refine List.Pairwise.imp_of_mem ?_ hmid.qSorted
        intro u u' hu hu' hr
        rw [hgetD u hu, hgetD u' hu']
        exact hr
      · intro u hu w hw
        rw [List.mem_singleton.mp hw, hgetD u hu, hnewlk]
        obtain ⟨cu, hcu⟩ := Option.isSome_iff_exists.mp (hmid.qKeys u hu)
        rw [hcu]
        have := hmid.capAll u cu hcu
        simpa using this
    · -- frontier
      intro w c h u hu
      rcases List.mem_append.mp hu with hq | hsing
      · rw [hgetD u hq]
        rcases helim h with ⟨rfl, rfl⟩ | ⟨_, hold⟩
        · have hge := hmid.qGe u hq
          omega
        · exact hmid.frontier w c hold u hq
      · rw [List.mem_singleton.mp hsing, hnewlk]
        rcases helim h with ⟨rfl, rfl⟩ | ⟨_, hold⟩
        · simp
        · have := hmid.capAll w c hold
          simp only [Option.getD_some]
          omega
    · -- closedExc
      intro w c h
      rcases helim h with ⟨rfl, rfl⟩ | ⟨hne, hold⟩
      · exact Or.inr (Or.inl (List.mem_append_right _ (List.mem_singleton_self _)))
      · rcases hmid.closedExc w c hold with hv | hq | hM | hcl
        · exact Or.inl hv
        · exact Or.inr (Or.inl (List.mem_append_left _ hq))
        · exact Or.inr (Or.inr (Or.inl hM))
        · refine Or.inr (Or.inr (Or.inr ?_))
          intro d' hd' hp'
          obtain ⟨cw, hcw, hle⟩ := hcl d' hd' hp'
          exact ⟨cw, hfresh hcw, hle⟩
    · -- parentsOK
      intro m p h
      rcases dlookup_cons_elim h with ⟨h1, h2⟩ | ⟨h1, h2⟩
      · refine ⟨base, ?_, hmid.baseLt, ?_, ?_, ?_, ?_⟩
        · rw [← h2]
          exact hfresh hmid.vMem
        · rw [← h1]
          exact hnewlk
        · rw [← h1, ← h2]
          have hdd : (v.1 + d.1 - v.1, v.2 + d.2 - v.2) = d := by
            obtain ⟨d1, d2⟩ := d
            simp only [Prod.mk.injEq]
            constructor <;> ring
          rw [hdd]
          exact hd
        · rw [← h1]
          exact hpass
        · rw [← h1]
          exact hnstart
      · obtain ⟨cp, hcp, hlt, hm, hadj, hp2, hns⟩ := hmid.parentsOK m p h2
        exact ⟨cp, hfresh hcp, hlt, hfresh hm, hadj, hp2, hns⟩
    · -- parentsDom
      intro w hws
      by_cases hw : w = (v.1 + d.1, v.2 + d.2)
      · subst hw
        constructor
        · intro _
          exact Option.isSome_iff_exists.mpr ⟨v, by rw [dlookup_cons, if_pos rfl]⟩
        · intro _
          exact Option.isSome_iff_exists.mpr ⟨base + 1, hnewlk⟩
      · have hw' : (v.1 + d.1, v.2 + d.2) ≠ w := fun he => hw he.symm
        rw [dlookup_cons, if_neg hw', dlookup_cons, if_neg hw']
        exact hmid.parentsDom w hws
    · -- parentsStart
      have hw' : (v.1 + d.1, v.2 + d.2) ≠ start := hnstart
      rw [dlookup_cons, if_neg hw']
      exact hmid.parentsStart
    · -- ball
      intro w c h
      rcases helim h with ⟨rfl, rfl⟩ | ⟨_, hold⟩
      · have hb := hmid.ball v base hmid.vMem
        have hd1 := dirs_natAbs hd
        simp only
        omega
      · exact hmid.ball w c hold
    · -- costLen
      intro w c h
      rw [List.length_cons]
      rcases helim h with ⟨rfl, rfl⟩ | ⟨_, hold⟩
      · have := hmid.costLen v base hmid.vMem
        omega
      · have := hmid.costLen w c hold
        omega
    · -- plen
      rw [List.length_cons, List.length_cons]
      have := hmid.plen
      omega
    · -- capAll
      intro w c h
      rcases helim h with ⟨rfl, rfl⟩ | ⟨_, hold⟩
      · exact le_rfl
      · exact hmid.capAll w c hold
    · -- qGe
      intro u hu
      rcases List.mem_append.mp hu with hq | hsing
      · rw [hgetD u hq]
        exact hmid.qGe u hq
      · rw [List.mem_singleton.mp hsing, hnewlk]
        simp
    · -- vMem
      exact hfresh hmid.vMem
    · -- ensured_ok
      intro d' hd' hp'
      rcases List.mem_cons.mp hd' with rfl | hmem
      · exact ⟨base + 1, hnewlk, le_rfl⟩
      · obtain ⟨cw, hcw, hle⟩ := hmid.ensured_ok d' hmem hp'
        exact ⟨cw, hfresh hcw, hle⟩

/-- Dequeuing a node below the ceiling establishes the mid-expansion
invariant with nothing ensured yet. -/
theorem pop_mid (start : Coord) (pass : Coord → Bool) (M : ℤ) (v : Coord) (rest : List Coord)
    (costs : List (Coord × ℕ)) (parents : List (Coord × Coord)) (base : ℕ)
    (hinv : FFInv start pass M ⟨v :: rest, costs, parents⟩)
    (hbase : dlookup v costs = some base) (hlt : (base : ℤ) < M) :
    MidInv start pass M v base [] ⟨rest, costs, parents⟩ := by
  refine ⟨hinv.nodupKeys, hinv.startMem, hinv.sound, hinv.bounded, ?_, ?_, ?_, ?_,
    hinv.parentsOK, hinv.parentsDom, hinv.parentsStart, hinv.ball, hinv.costLen, hinv.plen,
    ?_, ?_, hbase, hlt, ?_⟩
  · intro w hw
    exact hinv.qKeys w (List.mem_cons_of_mem _ hw)
  · exact (List.pairwise_cons.mp hinv.qSorted).2
  · intro w c h u hu
    exact hinv.frontier w c h u (List.mem_cons_of_mem _ hu)
  · intro w c h
    rcases hinv.closed w c h with hq | hM | hcl
    · rcases List.mem_cons.mp hq with rfl | hr
      · exact Or.inl rfl
      · exact Or.inr (Or.inl hr)
    · exact Or.inr (Or.inr (Or.inl hM))
    · exact Or.inr (Or.inr (Or.inr hcl))
  · intro w c h
    have hfr := hinv.frontier w c h v (List.mem_cons_self _ _)
    rw [hbase] at hfr
    simpa using hfr
  · intro u hu
    have hp := (List.pairwise_cons.mp hinv.qSorted).1 u hu
    rw [hbase] at hp
    simpa using hp
  · intro d hd
    cases hd

/-- Dequeuing a node at or above the ceiling just drops it from the queue
and keeps the invariant. -/
theorem pop_skip (start : Coord) (pass : Coord → Bool) (M : ℤ) (v : Coord) (rest : List Coord)
    (costs : List (Coord × ℕ)) (parents : List (Coord × Coord)) (base : ℕ)
    (hinv : FFInv start pass M ⟨v :: rest, costs, parents⟩)
    (hbase : dlookup v costs = some base) (hge : M ≤ (base : ℤ)) :
    FFInv start pass M ⟨rest, costs, parents⟩ := by
  refine ⟨hinv.nodupKeys, hinv.startMem, hinv.sound, hinv.bounded, ?_, ?_, ?_, ?_,
    hinv.parentsOK, hinv.parentsDom, hinv.parentsStart, hinv.ball, hinv.costLen, hinv.plen⟩
  · intro w hw
    exact hinv.qKeys w (List.mem_cons_of_mem _ hw)
  · exact (List.pairwise_cons.mp hinv.qSorted).2
  · intro w c h u hu
    exact hinv.frontier w c h u (List.mem_cons_of_mem _ hu)
  · intro w c h
    rcases hinv.closed w c h with hq | hM | hcl
    · rcases List.mem_cons.mp hq with rfl | hr
      · have hcb : base = c := by
          rw [hbase] at h
          injection h
        exact Or.inr (Or.inl (by omega))
      · exact Or.inl hr
    · exact Or.inr (Or.inl hM)
    · exact Or.inr (Or.inr hcl)

/-- Once every direction is ensured, the mid-expansion invariant collapses
back into the plain loop invariant. -/
theorem mid_to_inv (start : Coord) (pass : Coord → Bool) (M : ℤ) (v : Coord) (base : ℕ)
    (E : List Coord) (st : FFState)
    (hall : ∀ d ∈ dirs, d ∈ E)
    (hmid : MidInv start pass M v base E st) :
    FFInv start pass M st := by
  refine ⟨hmid.nodupKeys, hmid.startMem, hmid.sound, hmid.bounded, hmid.qKeys, hmid.qSorted,
    hmid.frontier, ?_, hmid.parentsOK, hmid.parentsDom, hmid.parentsStart, hmid.ball,
    hmid.costLen, hmid.plen⟩
  intro w c h
  rcases hmid.closedExc w c h with rfl | hq | hM | hcl
  · right; right
    intro d hd hp
    obtain ⟨cw, hcw, hle⟩ := hmid.ensured_ok d (hall d hd) hp
    have hcb : base = c := by
      rw [hmid.vMem] at h
      injection h
    exact ⟨cw, hcw, by omega⟩
  · exact Or.inl hq
  · exact Or.inr (Or.inl hM)
  · exact Or.inr (Or.inr hcl)

/-- Expanding all four neighbours of a dequeued node restores the loop
invariant. -/
theorem fold_dirs_mid (start : Coord) (pass : Coord → Bool) (M : ℤ) (v : Coord) (base : ℕ)
    (st : FFState) (hmid : MidInv start pass M v base [] st) :
    FFInv start pass M (dirs.foldl (stepNbr pass v base) st) := by
  have h1 := stepNbr_mid start pass M v base [] st (1, 0) (by decide) hmid
  have h2 := stepNbr_mid start pass M v base _ _ (-1, 0) (by decide) h1
  have h3 := stepNbr_mid start pass M v base _ _ (0, 1) (by decide) h2
  have h4 := stepNbr_mid start pass M v base _ _ (0, -1) (by decide) h3
  have he : dirs.foldl (stepNbr pass v base) st =
      stepNbr pass v base (stepNbr pass v base
        (stepNbr pass v base (stepNbr pass v base st (1, 0)) (-1, 0)) (0, 1)) (0, -1) := by
    simp [dirs]
  rw [he]
  exact mid_to_inv start pass M v base _ _ (by decide) h4

/-- One neighbour step moves queue and cost lengths in lockstep and adds at
most one cost entry. -/
theorem stepNbr_size (pass : Coord → Bool) (v : Coord) (base : ℕ) (st : FFState) (d : Coord) :
    (stepNbr pass v base st d).q.length + st.costs.length
      = st.q.length + (stepNbr pass v base st d).costs.length ∧
    st.costs.length ≤ (stepNbr pass v base st d).costs.length ∧
    (stepNbr pass v base st d).costs.length ≤ st.costs.length + 1 := by
  rcases stepNbr_eq_or pass v base st d with ⟨heq, _⟩ | ⟨_, _, heq⟩
  · rw [heq]
    simp
  · rw [heq]
    simp
    omega

/-- Size bookkeeping over the whole four-neighbour expansion. -/
theorem fold_dirs_size (pass : Coord → Bool) (v : Coord) (base : ℕ) (st : FFState) :
    (dirs.foldl (stepNbr pass v base) st).q.length + st.costs.length
      = st.q.length + (dirs.foldl (stepNbr pass v base) st).costs.length ∧
    st.costs.length ≤ (dirs.foldl (stepNbr pass v base) st).costs.length ∧
    (dirs.foldl (stepNbr pass v base) st).costs.length ≤ st.costs.length + 4 := by
  have he : dirs.foldl (stepNbr pass v base) st =
      stepNbr pass v base (stepNbr pass v base
        (stepNbr pass v base (stepNbr pass v base st (1, 0)) (-1, 0)) (0, 1)) (0, -1) := by
    simp [dirs]
  rw [he]
  have s1 := stepNbr_size pass v base st (1, 0)
  have s2 := stepNbr_size pass v base (stepNbr pass v base st (1, 0)) (-1, 0)
  have s3 := stepNbr_size pass v base
    (stepNbr pass v base (stepNbr pass v base st (1, 0)) (-1, 0)) (0, 1)
  have s4 := stepNbr_size pass v base (stepNbr pass v base
    (stepNbr pass v base (stepNbr pass v base st (1, 0)) (-1, 0)) (0, 1)) (0, -1)
  omega

/-- Master run of the `flood_fill` loop: from any invariant state whose
potential is below the fuel, the loop drains the queue and preserves the
invariant. -/
theorem floodLoop_master (start : Coord) (pass : Coord → Bool) (M : ℤ) :
    ∀ (fuel : ℕ) (st : FFState), FFInv start pass M st →
      st.q.length + 4 * ((2 * M.toNat + 1) ^ 2 - st.costs.length) < fuel →
      FFInv start pass M (floodLoop pass M fuel st) ∧ (floodLoop pass M fuel st).q = [] := by
  intro fuel
  induction fuel with
  | zero =>
    intro st _ h
    exact absurd h (Nat.not_lt_zero _)
  | succ f ih =>
    intro st hinv hF
    obtain ⟨q, costs, parents⟩ := st
    cases q with
    | nil =>
      have he : floodLoop pass M (f + 1) ⟨[], costs, parents⟩ = ⟨[], costs, parents⟩ := by
        simp [floodLoop]
      rw [he]
      exact ⟨hinv, rfl⟩
    | cons v rest =>
      have hkey := hinv.qKeys v (List.mem_cons_self _ _)
      obtain ⟨base, hbase⟩ := Option.isSome_iff_exists.mp hkey
      have hgd : (dlookup v costs).getD 0 = base := by rw [hbase]; rfl
      by_cases hM : M ≤ (base : ℤ)
      · have he : floodLoop pass M (f + 1) ⟨v :: rest, costs, parents⟩
            = floodLoop pass M f ⟨rest, costs, parents⟩ := by
          simp only [floodLoop, hgd]
          rw [if_pos hM]
        rw [he]
        apply ih ⟨rest, costs, parents⟩ (pop_skip start pass M v rest costs parents base hinv hbase hM)
        simp only [List.length_cons] at hF
        simp only
        omega
      · push_neg at hM
        have hmid := pop_mid start pass M v rest costs parents base hinv hbase hM
        have hinv2 := fold_dirs_mid start pass M v base ⟨rest, costs, parents⟩ hmid
        have hsz := fold_dirs_size pass v base ⟨rest, costs, parents⟩
        have he : floodLoop pass M (f + 1) ⟨v :: rest, costs, parents⟩
            = floodLoop pass M f (dirs.foldl (stepNbr pass v base) ⟨rest, costs, parents⟩) := by
          simp only [floodLoop, hgd]
          rw [if_neg (not_le.mpr hM)]
        rw [he]
        apply ih _ hinv2
        have hMpos : 0 ≤ M := by
          have hb0 : (0 : ℤ) ≤ (base : ℤ) := Int.natCast_nonneg _
          omega
        have hle := inv_costs_le start pass M _ hMpos hinv2
        simp only [List.length_cons] at hF
        simp only at hsz ⊢
        omega

/-- The starting state of `flood_fill` satisfies the loop invariant. -/
theorem init_inv (start : Coord) (pass : Coord → Bool) (M : ℤ) :
    FFInv start pass M ⟨[start], [(start, 0)], []⟩ := by
  have hself : dlookup start [(start, 0)] = some 0 := by
    rw [dlookup_cons, if_pos rfl]
  have helim : ∀ {w : Coord} {c : ℕ}, dlookup w [(start, 0)] = some c → w = start ∧ c = 0 := by
    intro w c h
    rcases dlookup_cons_elim h with ⟨h1, h2⟩ | ⟨_, h2⟩
    · exact ⟨h1.symm, h2.symm⟩
    · simp [dlookup] at h2
  refine ⟨?_, hself, ?_, ?_, ?_, ?_, ?_, ?_, ?_, ?_, ?_, ?_, ?_, ?_⟩
  · simp
  · intro w c h
    obtain ⟨rfl, rfl⟩ := helim h
    exact Reach.zero
  · intro w c h
    exact Or.inl (helim h)
  · intro w hw
    rw [List.mem_singleton.mp hw]
    exact Option.isSome_iff_exists.mpr ⟨0, hself⟩
  · simp
  · intro w c h u hu
    obtain ⟨rfl, rfl⟩ := helim h
    omega
  · intro w c h
    obtain ⟨rfl, rfl⟩ := helim h
    exact Or.inl (List.mem_singleton_self _)
  · intro n p h
    simp [dlookup] at h
  · intro w hws
    have hne : start ≠ w := fun he => hws he.symm
    rw [dlookup_cons, if_neg hne]
    simp [dlookup]
  · simp [dlookup]
  · intro w c h
    obtain ⟨rfl, rfl⟩ := helim h
    simp
  · intro w c h
    obtain ⟨rfl, rfl⟩ := helim h
    simp
  · rfl

/-- The fully run `flood_fill` loop state: the invariant holds and the
queue is drained. -/
theorem flood_fill_final (start : Coord) (pass : Coord → Bool) (M : ℤ) :
    FFInv start pass M (floodLoop pass M (floodFuel M) ⟨[start], [(start, 0)], []⟩) ∧
    (floodLoop pass M (floodFuel M) ⟨[start], [(start, 0)], []⟩).q = [] := by
  apply floodLoop_master start pass M (floodFuel M) _ (init_inv start pass M)
  have hB : 0 < (2 * M.toNat + 1) ^ 2 := by positivity
  unfold floodFuel
  simp only [List.length_singleton, List.length_cons, List.length_nil]
  omega

/-- The cost dictionary of `flood_fill` is the costs of the drained loop
state, and similarly for parents. -/
theorem flood_fill_eq (start : Coord) (pass : Coord → Bool) (M : ℤ) :
    flood_fill start pass M =
      ((floodLoop pass M (floodFuel M) ⟨[start], [(start, 0)], []⟩).costs,
       (floodLoop pass M (floodFuel M) ⟨[start], [(start, 0)], []⟩).parents) := rfl

/-- Minimality: any `Reach`-path of length within the ceiling forces a cost
entry at most that length. -/
theorem flood_min (start : Coord) (pass : Coord → Bool) (M : ℤ) :
    ∀ (n : ℕ) (w : Coord), Reach start pass n w → (n : ℤ) ≤ M →
      ∃ c, dlookup w (flood_fill start pass M).1 = some c ∧ c ≤ n := by
  obtain ⟨hinv, hq⟩ := flood_fill_final start pass M
  intro n w hr
  induction hr with
  | zero =>
    intro _
    exact ⟨0, hinv.startMem, le_rfl⟩
  | @step n' u d hr' hd hpass ih =>
    intro hle
    have hn : (n' : ℤ) ≤ M := by push_cast at hle ⊢; omega
    obtain ⟨cu, hcu, hcun⟩ := ih hn
    rcases hinv.closed u cu hcu with hmem | hM | hcl
    · rw [hq] at hmem
      cases hmem
    · exfalso
      have : ((cu : ℤ)) ≤ (n' : ℤ) := by exact_mod_cast hcun
      push_cast at hle
      omega
    · obtain ⟨cw, hcw, hle2⟩ := hcl d hd hpass
      exact ⟨cw, hcw, by omega⟩

/-- C6: with a nonnegative ceiling, every recorded cost is the hop count of
a shortest 4-connected passable path from the start, no recorded cost
exceeds the ceiling, and no parent pointer goes through a node whose cost
reached the ceiling (such a node is recorded but never expanded). -/
theorem C6_flood_costs (start : Coord) (pass : Coord → Bool) (M : ℤ) (hM : 0 ≤ M)
    (v : Coord) (c : ℕ) (h : dlookup v (flood_fill start pass M).1 = some c) :
    Reach start pass c v ∧
    (∀ n, Reach start pass n v → c ≤ n) ∧
    (c : ℤ) ≤ M ∧
    (∀ n p, dlookup n (flood_fill start pass M).2 = some p →
      ∃ cp, dlookup p (flood_fill start pass M).1 = some cp ∧ (cp : ℤ) < M) := by
  obtain ⟨hinv, hq⟩ := flood_fill_final start pass M
  refine ⟨hinv.sound v c h, ?_, ?_, ?_⟩
  · intro n hr
    by_contra hlt
    push_neg at hlt
    have hcM : (c : ℤ) ≤ M :=  by
      rcases hinv.bounded v c h with ⟨_, h0⟩ | hle
      · omega
      · exact hle
    have hnM : (n : ℤ) ≤ M := by omega
    obtain ⟨c', hc', hcn⟩ := flood_min start pass M n v hr hnM
    rw [h] at hc'
    injection hc' with hc''
    omega
  · rcases hinv.bounded v c h with ⟨_, h0⟩ | hle
    · omega
    · exact hle
  · intro n p hp
    obtain ⟨cp, hcp, hlt2, _, _, _, _⟩ := hinv.parentsOK n p hp
    exact ⟨cp, hcp, hlt2⟩

/-- Witness for C6: on an all-passable grid with ceiling 2, the tile
`(1, 1)` is recorded at cost 2, which is reachable and within the ceiling. -/
theorem C6_witness :
    Reach (0, 0) (fun _ => true) 2 (1, 1) ∧ ((2 : ℕ) : ℤ) ≤ 2 :=
  ⟨(C6_flood_costs (0, 0) (fun _ => true) 2 (by decide) (1, 1) 2 (by decide)).1,
   (C6_flood_costs (0, 0) (fun _ => true) 2 (by decide) (1, 1) 2 (by decide)).2.2.1⟩

/-- C10: the start coordinate is always recorded with cost 0, for every
passability predicate (including ones rejecting the start tile), and
flooding still expands outward from it: any passable neighbour is recorded
with cost at most 1 when the ceiling allows a step. -/
theorem C10_start_costed (start : Coord) (pass : Coord → Bool) (M : ℤ) :
    dlookup start (flood_fill start pass M).1 = some 0 ∧
    (∀ d ∈ dirs, pass (start.1 + d.1, start.2 + d.2) = true → 1 ≤ M →
      ∃ c, dlookup (start.1 + d.1, start.2 + d.2) (flood_fill start pass M).1 = some c ∧
        c ≤ 1) := by
  obtain ⟨hinv, _⟩ := flood_fill_final start pass M
  refine ⟨hinv.startMem, ?_⟩
  intro d hd hp hM
  exact flood_min start pass M 1 _ (Reach.step Reach.zero hd hp) (by exact_mod_cast hM)

/-- Witness for C10: a predicate that rejects the start tile still yields
cost 0 for the start, and the flood still reaches a neighbour. -/
theorem C10_witness :
    dlookup (0, 0) (flood_fill (0, 0) (fun c => decide (c ≠ ((0 : ℤ), (0 : ℤ)))) 2).1 = some 0 ∧
    (∃ c, dlookup (1, 0)
        (flood_fill (0, 0) (fun c => decide (c ≠ ((0 : ℤ), (0 : ℤ)))) 2).1 = some c ∧ c ≤ 1) :=
  ⟨(C10_start_costed (0, 0) (fun c => decide (c ≠ ((0 : ℤ), (0 : ℤ)))) 2).1,
   (C10_start_costed (0, 0) (fun c => decide (c ≠ ((0 : ℤ), (0 : ℤ)))) 2).2
     (1, 0) (by decide) (by decide) (by decide)⟩

/-- Walking parent pointers from any recorded node, with fuel above its
cost, yields the chain down to the start: correct length, endpoints, and
parent-to-child adjacency at every link. -/
theorem reconstruct_chain (start : Coord) (pass : Coord → Bool) (M : ℤ) :
    ∀ (c : ℕ) (cur : Coord), dlookup cur (flood_fill start pass M).1 = some c →
      ∀ fuel, c < fuel →
        (reconstructAux (flood_fill start pass M).2 fuel cur).length = c + 1 ∧
        (reconstructAux (flood_fill start pass M).2 fuel cur).head? = some cur ∧
        (reconstructAux (flood_fill start pass M).2 fuel cur).getLast? = some start ∧
        List.Chain' (fun x y => (x.1 - y.1, x.2 - y.2) ∈ dirs)
          (reconstructAux (flood_fill start pass M).2 fuel cur) := by
  obtain ⟨hinv, _⟩ := flood_fill_final start pass M
  have hsm : dlookup start (flood_fill start pass M).1 = some 0 := hinv.startMem
  have hps : dlookup start (flood_fill start pass M).2 = none := hinv.parentsStart
  intro c
  induction c with
  | zero =>
    intro cur h fuel hf
    have hcs : cur = start := by
      by_contra hne
      have hdom := (hinv.parentsDom cur hne).mp (Option.isSome_iff_exists.mpr ⟨0, h⟩)
      obtain ⟨p, hp⟩ := Option.isSome_iff_exists.mp hdom
      obtain ⟨cp, _, _, hm, _, _, _⟩ := hinv.parentsOK cur p hp
      have hmm : dlookup cur (flood_fill start pass M).1 = some (cp + 1) := hm
      rw [h] at hmm
      injection hmm with hmm'
      omega
    subst hcs
    cases fuel with
    | zero => omega
    | succ f => simp [reconstructAux, hps]
  | succ c ih =>
    intro cur h fuel hf
    have hne : cur ≠ start := by
      intro he
      rw [he, hsm] at h
      injection h with h'
      omega
    have hdom := (hinv.parentsDom cur hne).mp (Option.isSome_iff_exists.mpr ⟨c + 1, h⟩)
    obtain ⟨p, hp⟩ := Option.isSome_iff_exists.mp hdom
    obtain ⟨cp, hcp, _, hm, hadj, _, _⟩ := hinv.parentsOK cur p hp
    have hmm : dlookup cur (flood_fill start pass M).1 = some (cp + 1) := hm
    rw [h] at hmm
    injection hmm with hmm'
    have hcpc : cp = c := by omega
    subst hcpc
    cases fuel with
    | zero => omega
    | succ f =>
      have hpl : dlookup cur (flood_fill start pass M).2 = some p := hp
      have hrec : reconstructAux (flood_fill start pass M).2 (f + 1) cur
          = cur :: reconstructAux (flood_fill start pass M).2 f p := by
        simp [reconstructAux, hpl]
      obtain ⟨hlen, hhead, hlast, hchain⟩ := ih p hcp f (by omega)
      rw [hrec]
      refine ⟨by simp [hlen], by simp, getLast_cons_some _ _ _ hlast, ?_⟩
      rw [List.chain'_cons']
      refine ⟨?_, hchain⟩
      intro y hy
      rw [hhead] at hy
      have hyp : p = y := by simpa using hy
      rw [← hyp]
      exact hadj

/-- C7: for every coordinate recorded by `flood_fill`, `reconstruct_path`
yields a sequence from the start to that coordinate of length `cost + 1`
whose consecutive tiles are 4-adjacent; and on any parent map at all, an
end point without a parent chain reconstructs to the one-element list. -/
theorem C7_reconstruct_path (start : Coord) (pass : Coord → Bool) (M : ℤ)
    (end_ : Coord) (c : ℕ) (h : dlookup end_ (flood_fill start pass M).1 = some c) :
    ((reconstruct_path end_ (flood_fill start pass M).2).length = c + 1 ∧
     (reconstruct_path end_ (flood_fill start pass M).2).head? = some start ∧
     (reconstruct_path end_ (flood_fill start pass M).2).getLast? = some end_ ∧
     List.Chain' (fun x y => (y.1 - x.1, y.2 - x.2) ∈ dirs)
       (reconstruct_path end_ (flood_fill start pass M).2)) ∧
    (∀ (e : Coord) (ps : List (Coord × Coord)), dlookup e ps = none →
      reconstruct_path e ps = [e]) := by
  constructor
  · obtain ⟨hinv, _⟩ := flood_fill_final start pass M
    have hcl : c < (flood_fill start pass M).1.length := hinv.costLen end_ c h
    have hpl : (flood_fill start pass M).2.length + 1 = (flood_fill start pass M).1.length :=
      hinv.plen
    obtain ⟨hlen, hhead, hlast, hchain⟩ := reconstruct_chain start pass M c end_ h
      ((flood_fill start pass M).2.length + 1) (by omega)
    unfold reconstruct_path
    refine ⟨by simp [hlen], ?_, ?_, ?_⟩
    · rw [List.head?_reverse]
      exact hlast
    · rw [List.getLast?_reverse]
      exact hhead
    · rw [List.chain'_reverse]
      exact hchain
  · intro e ps hnone
    unfold reconstruct_path
    simp [reconstructAux, hnone]

/-- Witness for C7: the reconstructed path to `(1, 1)` on the open flood,
and the single-element degenerate reconstruction. -/
theorem C7_witness :
    (reconstruct_path (1, 1) (flood_fill (0, 0) (fun _ => true) 2).2).length = 2 + 1 ∧
    (reconstruct_path (1, 1) (flood_fill (0, 0) (fun _ => true) 2).2).head? = some (0, 0) ∧
    (reconstruct_path (1, 1) (flood_fill (0, 0) (fun _ => true) 2).2).getLast? = some (1, 1) ∧
    reconstruct_path (5, 5) ([] : List (Coord × Coord)) = [(5, 5)] := by
  have h := C7_reconstruct_path (0, 0) (fun _ => true) 2 (1, 1) 2 (by decide)
  exact ⟨h.1.1, h.1.2.1, h.1.2.2.1, h.2 (5, 5) [] (by decide)⟩
